import Mathlib

/-!
burry.sh: the ZooKeeper backup and restore walks of `zk.go`.

A shallow embedding of `visitZK`, `visitZKReverse`, `readc` and `restoreZK`.

* Go strings and byte slices are both modelled as `List Char` (a sequence over
  one alphabet); the conversion `string(val)` is the identity.
* A Go `error` is an `Option Err`, `none` being `nil`; a Go multiple return is a tuple.
* `visitZK` recurses without bound; it carries a recursion budget and records the
  invocations of its callback `fn` in order.
* The ZooKeeper connection `zkconn`, the local file system and `filepath.Walk`
  are external to `zk.go`; they are modelled below as explicit state: a path-keyed
  store of znodes with a call log and injected failures, and a directory tree whose
  listings are kept in lexical order.
* The reap function of the backup and the encoding of tree paths into mirror paths
  live outside `zk.go`; they are modelled from the specification.
-/

namespace Burry

/-! ## Strings -/

/-- A Go string. -/
abbrev Str := List Char

/-- A Go byte slice. -/
abbrev Bytes := List Char

/-- Worker of `strings_Replace`: scan left to right; `skip` counts the characters of a
matched occurrence of `old` that are still to be dropped. -/
def replaceFrom (old new : Str) : Nat → Str → Str
  | _, [] => []
  | skip + 1, _ :: cs => replaceFrom old new skip cs
  | 0, c :: cs =>
    if old.isPrefixOf (c :: cs) then new ++ replaceFrom old new (old.length - 1) cs
    else c :: replaceFrom old new 0 cs

/-- Go `strings.Replace(s, old, new, -1)` for a non-empty `old`: every non-overlapping
occurrence of `old`, found left to right, is replaced by `new`. -/
def strings_Replace (s old new : Str) : Str := replaceFrom old new 0 s

/-- The literal `"BURRY_ESC_COLON"` of `visitZKReverse`. -/
def BURRY_ESC_COLON : Str := "BURRY_ESC_COLON".toList

/-- Go `filepath.Join(dir, name)` on paths kept relative to the snapshot base directory,
whose own relative path is `"."`. -/
def filepath_Join (dir name : Str) : Str :=
  if dir = ['.'] then name else dir ++ '/' :: name

/-! ## Errors -/

/-- A non-nil Go `error` value. -/
inductive Err
  | zk (code : Nat)
  | fs (code : Nat)
  deriving DecidableEq, Repr

/-- ZooKeeper `ErrNoNode`. -/
def ErrNoNode : Err := .zk 101

/-- ZooKeeper `ErrNodeExists`. -/
def ErrNodeExists : Err := .zk 110

/-- File system `ENOENT`. -/
def ENOENT : Err := .fs 2

/-- File system `EISDIR`. -/
def EISDIR : Err := .fs 21

/-! ## The tree service as seen by the backup walk -/

/-- The two read operations of the ZooKeeper connection used by `visitZK`; each returns
its value together with a Go error. -/
structure ZkReader where
  Children : Str → List Str × Option Err
  Get : Str → Bytes × Option Err

/-- The path `visitZK` computes for child `c` of `path`:
`strings.Join([]string{path, c}, "")` under the root, `strings.Join([]string{path, c}, "/")`
elsewhere. -/
def newpath (path c : Str) : Str :=
  if path = ['/'] then path ++ c else path ++ '/' :: c

/-- Run `f` on every element in order and concatenate the recorded invocations;
`none` when one of the runs does not return. -/
def forEach {α : Type} (f : Str → Option (List α)) : List Str → Option (List α)
  | [] => some []
  | c :: cs =>
    match f c with
    | none => none
    | some r =>
      match forEach f cs with
      | none => none
      | some rs => some (r ++ rs)

/-- Embedding of `visitZK(path, fn)`. The result is the sequence of invocations
`fn(path, val)` made by the call, in order; `none` means the recursion budget `fuel`
was exhausted before the call returned. -/
def visitZK (zkconn : ZkReader) : Nat → Str → Option (List (Str × Bytes))
  | 0, _ => none
  | fuel + 1, path =>
    match zkconn.Children path with
    | (_, some _) => some []
    | (children, none) =>
      if children.length > 0 then
        forEach (fun c => visitZK zkconn fuel (newpath path c)) children
      else
        match zkconn.Get path with
        | (_, some _) => some []
        | (val, none) => some [(path, val)]

/-! ## The tree service as seen by the restore walk -/

/-- A call made on the connection by the restore walk, with what it returned. -/
inductive ZkCall
  | Exists (path : Str) (present : Bool) (err : Option Err)
  | Create (path : Str) (data : Bytes) (err : Option Err)
  deriving DecidableEq, Repr

/-- The ZooKeeper connection `zkconn` during restore: the znodes of the server in creation
order, the calls made so far, and the transient failures the service will answer with
(by path) for `Exists` and `Create`. -/
structure ZkConn where
  nodes : List (Str × Bytes)
  calls : List ZkCall
  existsErr : Str → Option Err
  createErr : Str → Option Err

/-- Payload of the znode at `p`, if the znode exists. -/
def lookupNode (p : Str) : List (Str × Bytes) → Option Bytes
  | [] => none
  | (q, d) :: rest => if q = p then some d else lookupNode p rest

/-- The parent of a znode path: the path up to its last `/`, the root for a top-level
znode. -/
def parentPath (p : Str) : Str :=
  let q := ((p.reverse.dropWhile (fun c => c != '/')).drop 1).reverse
  if q = [] then ['/'] else q

/-- ZooKeeper `Exists(path)`: `(present, err)` and the connection afterwards. -/
def ZkConn.Exists (zk : ZkConn) (path : Str) : (Bool × Option Err) × ZkConn :=
  match zk.existsErr path with
  | some e => ((false, some e), { zk with calls := zk.calls ++ [.Exists path false (some e)] })
  | none =>
    let present := (lookupNode path zk.nodes).isSome
    ((present, none), { zk with calls := zk.calls ++ [.Exists path present none] })

/-- The error ZooKeeper answers a `Create(path, _)` with: an injected failure, a node that
exists already, or a missing parent. -/
def ZkConn.createError (zk : ZkConn) (path : Str) : Option Err :=
  match zk.createErr path with
  | some e => some e
  | none =>
    if (lookupNode path zk.nodes).isSome then some ErrNodeExists
    else if (lookupNode (parentPath path) zk.nodes).isNone then some ErrNoNode
    else none

/-- ZooKeeper `Create(path, data, 0, acl)`: `(createdPath, err)` and the connection
afterwards; the znode is added only when no error is returned. -/
def ZkConn.Create (zk : ZkConn) (path : Str) (data : Bytes) : (Str × Option Err) × ZkConn :=
  match zk.createError path with
  | some e => (([], some e), { zk with calls := zk.calls ++ [.Create path data (some e)] })
  | none =>
    ((path, none),
      { zk with nodes := zk.nodes ++ [(path, data)]
                calls := zk.calls ++ [.Create path data none] })

/-! ## The local file system as seen by the restore walk -/

/-- The part of `os.FileInfo` that `visitZKReverse` reads. -/
structure FileInfo where
  Name : Str
  IsDir : Bool
  deriving DecidableEq, Repr

/-- The two file system calls of `visitZKReverse` and `readc`, on paths relative to the
snapshot base directory: `os.Stat` (its error) and `ioutil.ReadFile`. -/
structure FileSys where
  Stat : Str → Option Err
  ReadFile : Str → Bytes × Option Err

/-- Package-level names used by `zk.go` and declared elsewhere in the package. -/
structure Consts where
  BURRYMETA_FILE : Str
  CONTENT_FILE : Str
  snapshotid : Str

/-- Embedding of `readc(path)`. -/
def readc (fs : FileSys) (path : Str) : Bytes × Option Err :=
  let c : Bytes := []
  match fs.Stat path with
  | some ferr => (c, some ferr)
  | none =>
    match fs.ReadFile path with
    | (c, some rerr) => (c, some rerr)
    | (c, none) => (c, none)

/-- The znode path `visitZKReverse` computes from the entry path relative to the snapshot
base (the result of `filepath.Rel(base, path)`). -/
def znodeOf (rel : Str) : Str :=
  '/' :: strings_Replace rel BURRY_ESC_COLON [':']

/-- Embedding of `visitZKReverse(path, f, err)`; `path` is kept relative to the snapshot
base, so `filepath.Rel(base, path)` is `path` itself. The walk error `werr` is never read
by the source: inside the `else` branch the name `err` is the error returned by `Exists`. -/
def visitZKReverse (k : Consts) (fs : FileSys) (path : Str) (f : FileInfo)
    (_werr : Option Err) (zkconn : ZkConn) : Option Err × ZkConn :=
  if f.Name = k.BURRYMETA_FILE ∨ f.Name = k.snapshotid then (none, zkconn)
  else
    let znode := znodeOf path
    match zkconn.Exists znode with
    | ((pathpresent, err), zkconn) =>
      if err ≠ none then (err, zkconn)
      else if pathpresent then (none, zkconn)
      else if f.IsDir then
        let cfile := filepath_Join path k.CONTENT_FILE
        if fs.Stat cfile = none then
          match readc fs cfile with
          | (c, cerr) =>
            if cerr ≠ none then (cerr, zkconn)
            else
              match zkconn.Create znode c with
              | ((_, zerr), zkconn) => if err ≠ none then (zerr, zkconn) else (none, zkconn)
        else
          match zkconn.Create znode [] with
          | ((_, zerr), zkconn) => if err ≠ none then (zerr, zkconn) else (none, zkconn)
      else (none, zkconn)

/-- Go `filepath.Walk(root, walkFn)` when no `Lstat` or directory read fails: `walkFn` is
called on the entries in walk order (pre-order, names of a directory in lexical order),
and the first non-nil error it returns ends the walk and is returned. -/
def Walk (walkFn : Str → FileInfo → Option Err → ZkConn → Option Err × ZkConn) :
    List (Str × FileInfo) → ZkConn → Option Err × ZkConn
  | [], zkconn => (none, zkconn)
  | (path, f) :: rest, zkconn =>
    match walkFn path f none zkconn with
    | (some err, zkconn) => (some err, zkconn)
    | (none, zkconn) => Walk walkFn rest zkconn

/-- Embedding of `restoreZK()`. `lookupst` is the value of `lookupst(brf.StorageTarget)`;
`fs` and `entries` are the unpacked snapshot directory returned by `unarch(fromremote())`
and its entries in walk order; `zkconn` is the connection returned by `zk.Connect`. -/
def restoreZK (k : Consts) (lookupst : Int) (fs : FileSys) (entries : List (Str × FileInfo))
    (zkconn : ZkConn) : Bool × ZkConn :=
  if lookupst > 0 then
    match Walk (visitZKReverse k fs) entries zkconn with
    | (some _, zkconn) => (false, zkconn)
    | (none, zkconn) => (true, zkconn)
  else (false, zkconn)

/-- Constants of a burry run: the metadata marker `.burrymeta`, the content file `content`
and a snapshot id. -/
def burry : Consts :=
  { BURRYMETA_FILE := ".burrymeta".toList
    CONTENT_FILE := "content".toList
    snapshotid := "1478267371".toList }

/-- A connection to a server holding `nodes`, with no call made yet and no failure. -/
def connTo (nodes : List (Str × Bytes)) : ZkConn :=
  { nodes := nodes, calls := [], existsErr := fun _ => none, createErr := fun _ => none }

/-- The empty tree: a ZooKeeper server holds at least its root znode. -/
def emptyTree : List (Str × Bytes) := [(['/'], [])]

/-- A file system that holds no file at all. -/
def noFiles : FileSys :=
  { Stat := fun _ => some ENOENT, ReadFile := fun _ => ([], some ENOENT) }

/-- The entry is one of the two reserved names tested by `visitZKReverse`. -/
def reservedName (k : Consts) (f : FileInfo) : Prop :=
  f.Name = k.BURRYMETA_FILE ∨ f.Name = k.snapshotid

instance (k : Consts) (f : FileInfo) : Decidable (reservedName k f) := by
  unfold reservedName; infer_instance

/-- Worker of `guarded`: `prev` is the call made just before the remaining ones. -/
def guardedFrom : Option ZkCall → List ZkCall → Prop
  | _, [] => True
  | prev, .Create q d e :: rest =>
    prev = some (.Exists q false none) ∧ guardedFrom (some (.Create q d e)) rest
  | _, .Exists p present err :: rest => guardedFrom (some (.Exists p present err)) rest

/-- The call is a `Create`. -/
def ZkCall.isCreate : ZkCall → Bool
  | .Create _ _ _ => true
  | .Exists _ _ _ => false

/-- The path `q` is a child of the path `p`. -/
def isChildOf (q p : Str) : Prop := q ≠ p ∧ parentPath q = p

instance (q p : Str) : Decidable (isChildOf q p) := by
  unfold isChildOf; infer_instance

/-- Every `Create` in a call sequence comes right after an `Exists` on the same path that
returned `(false, nil)`. -/
def guarded (calls : List ZkCall) : Prop := guardedFrom none calls

/-- The connection after an `Exists(znode)` call that returned `(present, err)`. -/
def afterExists (zk : ZkConn) (znode : Str) (present : Bool) (err : Option Err) : ZkConn :=
  { zk with calls := zk.calls ++ [.Exists znode present err] }

/-! ## A concrete snapshot directory -/

/-- The listing of a directory: its files and sub-directories, in lexical order of their
names (the order in which `filepath.Walk` visits them). -/
inductive FsForest
  | nil
  | file (name : Str) (content : Bytes) (rest : FsForest)
  | dir (name : Str) (kids : FsForest) (rest : FsForest)
  deriving DecidableEq, Repr

/-- What a path names in the file system. -/
inductive FsItem
  | isFile (content : Bytes)
  | isDir (kids : FsForest)
  deriving DecidableEq, Repr

/-- The entry called `n` in a directory listing. -/
def FsForest.find (n : Str) : FsForest → Option FsItem
  | .nil => none
  | .file m c rest => if m = n then some (.isFile c) else rest.find n
  | .dir m kids rest => if m = n then some (.isDir kids) else rest.find n

/-- The item a list of path segments leads to, starting in the listing `F`. -/
def resolve : List Str → FsForest → Option FsItem
  | [], _ => none
  | [n], F => F.find n
  | n :: m :: segs, F =>
    match F.find n with
    | some (.isDir kids) => resolve (m :: segs) kids
    | _ => none

/-- Go `strings.Split(s, sep)` for a one-character separator. -/
def splitOn (sep : Char) : Str → List Str
  | [] => [[]]
  | c :: cs =>
    if c = sep then [] :: splitOn sep cs
    else
      match splitOn sep cs with
      | [] => [[c]]
      | seg :: segs => (c :: seg) :: segs

/-- The segments of a slash-separated relative path; empty segments name nothing. -/
def pathSegments (rel : Str) : List Str :=
  (splitOn '/' rel).filter (fun seg => seg ≠ [])

/-- The `os.Stat` and `ioutil.ReadFile` calls answered by the snapshot directory with
listing `root`. -/
def fsOf (root : FsForest) : FileSys :=
  { Stat := fun p =>
      match resolve (pathSegments p) root with
      | some _ => none
      | none => some ENOENT
    ReadFile := fun p =>
      match resolve (pathSegments p) root with
      | some (.isFile c) => (c, none)
      | some (.isDir _) => ([], some EISDIR)
      | none => ([], some ENOENT) }

/-- The entries below a directory in the order `filepath.Walk` visits them: each entry,
then (for a directory) its own entries, then its later siblings. -/
def listing (dirpath : Str) : FsForest → List (Str × FileInfo)
  | .nil => []
  | .file n _ rest => (filepath_Join dirpath n, ⟨n, false⟩) :: listing dirpath rest
  | .dir n kids rest =>
    (filepath_Join dirpath n, ⟨n, true⟩)
      :: (listing (filepath_Join dirpath n) kids ++ listing dirpath rest)

/-- All entries `filepath.Walk` visits for the snapshot directory: the directory itself,
named by the snapshot id, then everything below it. -/
def snapshotEntries (k : Consts) (root : FsForest) : List (Str × FileInfo) :=
  (['.'], ⟨k.snapshotid, true⟩) :: listing ['.'] root

/-- The mirror `x/content = "hello"`, `y/`, `y/z/`, `y/z/w/content = "world"`. -/
def mirrorXY : FsForest :=
  .dir "x".toList (.file "content".toList "hello".toList .nil)
    (.dir "y".toList
      (.dir "z".toList
        (.dir "w".toList (.file "content".toList "world".toList .nil) .nil) .nil) .nil)

/-- A connection to a server holding `nodes` on which every `Create` fails with `e`. -/
def connCreateFailing (nodes : List (Str × Bytes)) (e : Err) : ZkConn :=
  { connTo nodes with createErr := fun _ => some e }

/-- A connection to a server holding `nodes` on which `Exists(p)` fails with `e`. -/
def connExistsFailing (nodes : List (Str × Bytes)) (p : Str) (e : Err) : ZkConn :=
  { connTo nodes with existsErr := fun q => if q = p then some e else none }

/-- The mirror `a/b/c/`. -/
def mirrorABC : FsForest :=
  .dir "a".toList (.dir "b".toList (.dir "c".toList .nil .nil) .nil) .nil

/-- The tree holding `/`, `/a` and `/a/b`, all with empty payload. -/
def treeAB : List (Str × Bytes) :=
  [("/".toList, []), ("/a".toList, []), ("/a/b".toList, [])]

/-! ## The path codec -/

/-- Modelled from the spec: `ToMirrorPath`, the encoding applied by the reap function of
the backup, which is not part of `zk.go`: the tree path without its leading `/` and with
every `:` replaced by the token `BURRY_ESC_COLON`. -/
def ToMirrorPath (p : Str) : Str :=
  strings_Replace (match p with | '/' :: r => r | _ => p) [':'] BURRY_ESC_COLON

/-- The decoding done by `visitZKReverse`: `/` followed by the relative path with every
occurrence of `BURRY_ESC_COLON` replaced by `:`. -/
def ToTreePath (r : Str) : Str := znodeOf r

/-- The token `BURRY_ESC_COLON` without its first character. -/
def tokenTail : Str := "URRY_ESC_COLON".toList

/-! ## Finite trees -/

/-- The children of a znode, in the order the service lists them: the first child (its
name, payload and own children), then its later siblings. -/
inductive Forest
  | nil
  | cons (name : Str) (data : Bytes) (kids : Forest) (rest : Forest)
  deriving DecidableEq, Repr

/-- No child at all. -/
def Forest.isNil : Forest → Bool
  | .nil => true
  | .cons _ _ _ _ => false

/-- The child names, in order. -/
def Forest.names : Forest → List Str
  | .nil => []
  | .cons n _ _ rest => n :: rest.names

/-- Number of levels below the parent. -/
def Forest.height : Forest → Nat
  | .nil => 0
  | .cons _ _ kids rest => max (kids.height + 1) rest.height

/-- The absolute path of child `c` of the node at `p`, in the words of the spec: a child
of `/` is `/` followed by `c`, a child of any other path is the path, `/`, then `c`. -/
def childPath (p c : Str) : Str :=
  if p = ['/'] then '/' :: c else p ++ ['/'] ++ c

/-- The leaves below the node at `p` whose children are `F`, depth first, children in
listed order, each with its absolute path and payload. -/
def leavesBelow (p : Str) : Forest → List (Str × Bytes)
  | .nil => []
  | .cons n d kids rest =>
    (if kids.isNil then [(childPath p n, d)] else leavesBelow (childPath p n) kids)
      ++ leavesBelow p rest

/-- The leaves of the subtree rooted at `p`, a node with payload `data` and children
`kids`: the node itself when it has no child. -/
def leaves (p : Str) (data : Bytes) (kids : Forest) : List (Str × Bytes) :=
  if kids.isNil then [(p, data)] else leavesBelow p kids

/-- The service answers every `Children` and `Get` call on the nodes below `p` as the
forest `F` says, without error. -/
def serves (zk : ZkReader) (p : Str) : Forest → Prop
  | .nil => True
  | .cons n d kids rest =>
    zk.Children (childPath p n) = (kids.names, none) ∧
    (kids.isNil = true → zk.Get (childPath p n) = (d, none)) ∧
    serves zk (childPath p n) kids ∧ serves zk p rest

/-- The service holds, at `p`, the tree with payload `data` and children `kids`, and
answers every call on it without error. -/
def servesTree (zk : ZkReader) (p : Str) (data : Bytes) (kids : Forest) : Prop :=
  zk.Children p = (kids.names, none) ∧
  (kids.isNil = true → zk.Get p = (data, none)) ∧
  serves zk p kids

instance servesDecidable (zk : ZkReader) : (p : Str) → (F : Forest) → Decidable (serves zk p F)
  | _, .nil => isTrue trivial
  | p, .cons n _ kids rest =>
    have := servesDecidable zk (childPath p n) kids
    have := servesDecidable zk p rest
    by unfold serves; infer_instance

instance (zk : ZkReader) (p : Str) (data : Bytes) (kids : Forest) :
    Decidable (servesTree zk p data kids) := by
  unfold servesTree; infer_instance

/-- A ZooKeeper server given by a table of its znodes: path, payload, child names. A call
on a path that is not in the table returns `ErrNoNode`. -/
def tableReader (table : List (Str × Bytes × List Str)) : ZkReader :=
  { Children := fun p =>
      match table.find? (fun row => row.1 = p) with
      | some row => (row.2.2, none)
      | none => ([], some ErrNoNode)
    Get := fun p =>
      match table.find? (fun row => row.1 = p) with
      | some row => (row.2.1, none)
      | none => ([], some ErrNoNode) }

/-- The tree of the spec: leaf `/x` = `hello`, branches `/y`, `/y/z`, leaf `/y/z/w` = `world`. -/
def treeXY : Forest :=
  .cons "x".toList "hello".toList .nil
    (.cons "y".toList []
      (.cons "z".toList [] (.cons "w".toList "world".toList .nil .nil) .nil) .nil)

/-- The server holding `treeXY` under the root. -/
def serverXY : ZkReader :=
  tableReader
    [("/".toList, [], ["x".toList, "y".toList]),
     ("/x".toList, "hello".toList, []),
     ("/y".toList, [], ["z".toList]),
     ("/y/z".toList, [], ["w".toList]),
     ("/y/z/w".toList, "world".toList, [])]

/-- The service `zk` with failures: `Children(p)` fails when `childrenErr p` is an error,
`Get(p)` fails when `getErr p` is one. -/
def withFaults (zk : ZkReader) (childrenErr getErr : Str → Option Err) : ZkReader :=
  { Children := fun p =>
      match childrenErr p with
      | some e => ([], some e)
      | none => zk.Children p
    Get := fun p =>
      match getErr p with
      | some e => ([], some e)
      | none => zk.Get p }

/-- The leaves below the node at `p`, as `leavesBelow`, each with its chain: the paths of
the nodes from the start of the walk down to the leaf itself (`chain` is the part of it
down to `p`). -/
def chainsBelow (chain : List Str) (p : Str) : Forest → List (List Str × Str × Bytes)
  | .nil => []
  | .cons n d kids rest =>
    (if kids.isNil then [(chain ++ [childPath p n], childPath p n, d)]
     else chainsBelow (chain ++ [childPath p n]) (childPath p n) kids)
      ++ chainsBelow chain p rest

/-- The leaves of the subtree rooted at `p`, as `leaves`, each with its chain. -/
def leafChains (p : Str) (data : Bytes) (kids : Forest) : List (List Str × Str × Bytes) :=
  if kids.isNil then [([p], p, data)] else chainsBelow [p] p kids

/-- The `Children` call of every node of the chain of a leaf succeeds, and so does the
`Get` call of the leaf. -/
def reachable (childrenErr getErr : Str → Option Err) (l : List Str × Str × Bytes) : Bool :=
  l.1.all (fun n => (childrenErr n).isNone) && (getErr l.2.1).isNone

/-- The leaves of the failure-free walk that stay reachable under the failures, in the
order of the failure-free walk. -/
def survivors (childrenErr getErr : Str → Option Err) (p : Str) (data : Bytes)
    (kids : Forest) : List (Str × Bytes) :=
  ((leafChains p data kids).filter (reachable childrenErr getErr)).map (fun l => l.2)

/-! ## The backup side of the mirror -/

/-- The name of the mirror directory of a znode called `n`: every `:` replaced by the
token. -/
def escName (n : Str) : Str := strings_Replace n [':'] BURRY_ESC_COLON

/-- Lexical order on strings, as used by `filepath.Walk` to sort the names of a directory. -/
def strLess : Str → Str → Bool
  | [], [] => false
  | [], _ :: _ => true
  | _ :: _, [] => false
  | a :: as, b :: bs =>
    if a.toNat < b.toNat then true
    else if b.toNat < a.toNat then false
    else strLess as bs

/-- The listing has an entry called `n`. -/
def FsForest.hasName (n : Str) : FsForest → Bool
  | .nil => false
  | .file m _ rest => decide (m = n) || rest.hasName n
  | .dir m _ rest => decide (m = n) || rest.hasName n

/-- Add a new directory `n` with listing `kids`, keeping the listing in lexical order. -/
def insertDir (n : Str) (kids : FsForest) : FsForest → FsForest
  | .nil => .dir n kids .nil
  | .file m c rest =>
    if strLess n m then .dir n kids (.file m c rest) else .file m c (insertDir n kids rest)
  | .dir m k rest =>
    if strLess n m then .dir n kids (.dir m k rest) else .dir m k (insertDir n kids rest)

/-- Add a new file `n` with content `c`, keeping the listing in lexical order. -/
def insertFile (n : Str) (c : Bytes) : FsForest → FsForest
  | .nil => .file n c .nil
  | .file m c0 rest =>
    if strLess n m then .file n c (.file m c0 rest) else .file m c0 (insertFile n c rest)
  | .dir m k rest =>
    if strLess n m then .file n c (.dir m k rest) else .dir m k (insertFile n c rest)

/-- Apply `g` to the listing of the existing directory `n`; an existing file `n` is left
alone. -/
def updateDir (n : Str) (g : FsForest → FsForest) : FsForest → FsForest
  | .nil => .nil
  | .file m c rest => if m = n then .file m c rest else .file m c (updateDir n g rest)
  | .dir m k rest => if m = n then .dir m (g k) rest else .dir m k (updateDir n g rest)

/-- Overwrite the existing file `n` with `c`; an existing directory `n` is left alone. -/
def updateFile (n : Str) (c : Bytes) : FsForest → FsForest
  | .nil => .nil
  | .file m c0 rest => if m = n then .file m c rest else .file m c0 (updateFile n c rest)
  | .dir m k rest => if m = n then .dir m k rest else .dir m k (updateFile n c rest)

/-- Make sure the directory `n` exists in the listing, then apply `g` inside it. -/
def mkdirIn (n : Str) (g : FsForest → FsForest) (K : FsForest) : FsForest :=
  if K.hasName n then updateDir n g K else insertDir n (g .nil) K

/-- Write the file `n` with content `c` into the listing. -/
def writeFile (n : Str) (c : Bytes) (K : FsForest) : FsForest :=
  if K.hasName n then updateFile n c K else insertFile n c K

/-- Go down the directories `segs` (as `os.MkdirAll` does, creating the missing ones), then
apply `g` to the listing reached. -/
def enter : List Str → (FsForest → FsForest) → FsForest → FsForest
  | [], g => g
  | n :: segs, g => mkdirIn n (enter segs g)

/-- Write `c` to the content file of the directory with path segments `segs`. -/
def writeContent (k : Consts) (segs : List Str) (c : Bytes) : FsForest → FsForest :=
  enter segs (writeFile k.CONTENT_FILE c)

/-- Modelled from the spec: the reap function of the backup, which is not part of `zk.go`:
it writes the payload of the leaf to the content file of the directory at
`ToMirrorPath(path)` below the snapshot directory, whose listing is `M`. -/
def reapsimple (k : Consts) (M : FsForest) (path : Str) (val : Bytes) : FsForest :=
  writeContent k (pathSegments (ToMirrorPath path)) val M

/-- The snapshot directory after the reap invocations `invs`, starting empty. -/
def mirrorOf (k : Consts) (invs : List (Str × Bytes)) : FsForest :=
  invs.foldl (fun M inv => reapsimple k M inv.1 inv.2) .nil

/-- Restore of the mirror produced by the reap invocations `invs` into the empty tree, over
a connection without failures. -/
def roundTrip (k : Consts) (invs : List (Str × Bytes)) : Bool × ZkConn :=
  restoreZK k 1 (fsOf (mirrorOf k invs)) (snapshotEntries k (mirrorOf k invs))
    (connTo emptyTree)

/-- A name ZooKeeper accepts for a znode: not empty, without `/`, and not `.`. -/
def validName (n : Str) : Prop := n ≠ [] ∧ '/' ∉ n ∧ n ≠ ['.']

instance (n : Str) : Decidable (validName n) := by
  unfold validName; infer_instance

/-- A znode of a tree: its absolute path, its name, its payload, and whether it is a
leaf. -/
structure ZNode where
  path : Str
  name : Str
  data : Bytes
  isLeaf : Bool
  deriving DecidableEq, Repr

/-- All znodes below the node at `P` whose children are `F`, parents first. -/
def nodeList (P : Str) : Forest → List ZNode
  | .nil => []
  | .cons n d kids rest =>
    ⟨childPath P n, n, d, kids.isNil⟩ :: (nodeList (childPath P n) kids ++ nodeList P rest)

/-- What the mirror needs of a znode: a valid name, no occurrence of the token in its
path, a mirror directory name that is neither of the two reserved names, a mirror
directory name other than the name of the content file when its parent is not the root
(the snapshot directory itself is never looked into for a content file), and a name other
than `..` (which ZooKeeper rejects and a file system path does not keep). -/
def nodeOK (k : Consts) (x : ZNode) : Prop :=
  validName x.name ∧ ¬ BURRY_ESC_COLON <:+: x.path ∧
  escName x.name ≠ k.BURRYMETA_FILE ∧ escName x.name ≠ k.snapshotid ∧
  (parentPath x.path ≠ ['/'] → escName x.name ≠ k.CONTENT_FILE) ∧ x.name ≠ ['.', '.']

instance (k : Consts) (x : ZNode) : Decidable (nodeOK k x) := by
  unfold nodeOK; infer_instance

/-- The effect, on the listing of the mirror directory of a node, of reaping all the
leaves below the node, whose children are `F`. -/
def reapBelow (k : Consts) : Forest → FsForest → FsForest
  | .nil, K => K
  | .cons n d kids rest, K =>
    reapBelow k rest
      (mkdirIn (escName n)
        (if kids.isNil then writeFile k.CONTENT_FILE d else reapBelow k kids) K)

/-- The mirror listing of the children `F`, in the given order: one directory per child,
holding the content file for a leaf and the mirror of its own children otherwise. -/
def image (k : Consts) : Forest → FsForest
  | .nil => .nil
  | .cons n d kids rest =>
    .dir (escName n) (if kids.isNil then .file k.CONTENT_FILE d .nil else image k kids)
      (image k rest)

/-- Add the child `n` to the children `acc`, in lexical order of the mirror names. -/
def insertChild (n : Str) (d : Bytes) (kids : Forest) : Forest → Forest
  | .nil => .cons n d kids .nil
  | .cons m e ks rest =>
    if strLess (escName n) (escName m) then .cons n d kids (.cons m e ks rest)
    else .cons m e ks (insertChild n d kids rest)

/-- The children `F` added one by one to `acc`, the children of each ordered the same
way: the tree as the lexical walk of its mirror sees it. -/
def lexInto : Forest → Forest → Forest
  | .nil, acc => acc
  | .cons n d kids rest, acc => lexInto rest (insertChild n d (lexInto kids .nil) acc)

/-- Siblings have different mirror names, at every level. -/
def mirrorDistinct : Forest → Prop
  | .nil => True
  | .cons n _ kids rest =>
    escName n ∉ rest.names.map escName ∧ mirrorDistinct kids ∧ mirrorDistinct rest

/-- A well-formed listing: valid names, no name twice in a directory, at every level. -/
def FsWF : FsForest → Prop
  | .nil => True
  | .file n _ rest => validName n ∧ rest.hasName n = false ∧ FsWF rest
  | .dir n kids rest => validName n ∧ rest.hasName n = false ∧ FsWF kids ∧ FsWF rest

/-- The error of `os.Stat` on the content file of a directory with listing `kids`. -/
def contentStat (k : Consts) (kids : FsForest) : Option Err :=
  match kids.find k.CONTENT_FILE with
  | some _ => none
  | none => some ENOENT

/-- The result of `ioutil.ReadFile` on the content file of a directory with listing
`kids`. -/
def contentRead (k : Consts) (kids : FsForest) : Bytes × Option Err :=
  match kids.find k.CONTENT_FILE with
  | some (.isFile c) => (c, none)
  | some (.isDir _) => ([], some EISDIR)
  | none => ([], some ENOENT)

/-- The file system answers the content file calls of every directory below `dp`, whose
listing is `M`, as the listing says. -/
def FsAgrees (k : Consts) (fs : FileSys) (dp : Str) : FsForest → Prop
  | .nil => True
  | .file _ _ rest => FsAgrees k fs dp rest
  | .dir n kids rest =>
    fs.Stat (filepath_Join (filepath_Join dp n) k.CONTENT_FILE) = contentStat k kids ∧
    fs.ReadFile (filepath_Join (filepath_Join dp n) k.CONTENT_FILE) = contentRead k kids ∧
    FsAgrees k fs (filepath_Join dp n) kids ∧ FsAgrees k fs dp rest

/-- The relative path `dp` of a directory below the snapshot base and its segments: the
base itself is `.` and has none. -/
def relInv (dp : Str) (segs : List Str) : Prop :=
  (dp = ['.'] ∧ segs = []) ∨ (dp ≠ ['.'] ∧ pathSegments dp = segs ∧ segs ≠ [])

/-- What the restore creates for a znode of the backed-up tree: its path, with its
payload for a leaf and the empty payload for a branch. -/
def restored (x : ZNode) : Str × Bytes :=
  (x.path, if x.isLeaf then x.data else [])

/-- The relative mirror path `dp` of the directory of the znode at `P`: `.` for the root,
`ToMirrorPath P` below it. -/
def dirOf (P dp : Str) : Prop :=
  (P = ['/'] ∧ dp = ['.']) ∨ (P ≠ ['/'] ∧ dp = ToMirrorPath P ∧ dp ≠ ['.'])

/-- The tree whose root is a leaf with payload `v`. -/
def serverRootLeaf : ZkReader := tableReader [("/".toList, "v".toList, [])]

/-- The tree with the single leaf `/BURRY_ESC_COLON` = `v`. -/
def serverToken : ZkReader :=
  tableReader
    [("/".toList, [], ["BURRY_ESC_COLON".toList]), ("/BURRY_ESC_COLON".toList, "v".toList, [])]

/-- The tree with the branch `/a` and the leaf `/a/content` = `v`. -/
def serverContent : ZkReader :=
  tableReader
    [("/".toList, [], ["a".toList]), ("/a".toList, [], ["content".toList]),
     ("/a/content".toList, "v".toList, [])]

/-- The tree with the single leaf `/.burrymeta` = `v`. -/
def serverMeta : ZkReader :=
  tableReader [("/".toList, [], [".burrymeta".toList]), ("/.burrymeta".toList, "v".toList, [])]

/-- The children of the root of the tree held by `serverToken`. -/
def treeToken : Forest := .cons "BURRY_ESC_COLON".toList "v".toList .nil .nil

/-- The children of the root of the tree held by `serverContent`. -/
def treeContent : Forest :=
  .cons "a".toList [] (.cons "content".toList "v".toList .nil .nil) .nil

/-- The children of the root of the tree held by `serverMeta`. -/
def treeMeta : Forest := .cons ".burrymeta".toList "v".toList .nil .nil

/-- The children of the root of a tree with the top-level leaf `/content` = `c` next
to `/x` = `hello` and `/y/z/w` = `world`. -/
def treeTopContent : Forest := .cons "content".toList "c".toList .nil treeXY

/-- The server holding `treeTopContent` under the root. -/
def serverTopContent : ZkReader :=
  tableReader
    [("/".toList, [], ["content".toList, "x".toList, "y".toList]),
     ("/content".toList, "c".toList, []),
     ("/x".toList, "hello".toList, []),
     ("/y".toList, [], ["z".toList]),
     ("/y/z".toList, [], ["w".toList]),
     ("/y/z/w".toList, "world".toList, [])]

/-! ## Theorems -/

theorem Exists_existsErr (zk : ZkConn) (p : Str) : (zk.Exists p).2.existsErr = zk.existsErr := by
  unfold ZkConn.Exists; split <;> rfl

theorem Exists_createErr (zk : ZkConn) (p : Str) : (zk.Exists p).2.createErr = zk.createErr := by
  unfold ZkConn.Exists; split <;> rfl

theorem Exists_nodes (zk : ZkConn) (p : Str) : (zk.Exists p).2.nodes = zk.nodes := by
  unfold ZkConn.Exists; split <;> rfl

theorem Create_existsErr (zk : ZkConn) (p : Str) (d : Bytes) :
    (zk.Create p d).2.existsErr = zk.existsErr := by
  unfold ZkConn.Create; split <;> rfl

theorem Create_createErr (zk : ZkConn) (p : Str) (d : Bytes) :
    (zk.Create p d).2.createErr = zk.createErr := by
  unfold ZkConn.Create; split <;> rfl

theorem vzr_reserved (k : Consts) (fs : FileSys) (path : Str) (f : FileInfo)
    (werr : Option Err) (zk : ZkConn) (h : reservedName k f) :
    visitZKReverse k fs path f werr zk = (none, zk) := by
  unfold reservedName at h
  simp [visitZKReverse, h]

theorem vzr_existsFail (k : Consts) (fs : FileSys) (path : Str) (f : FileInfo)
    (werr : Option Err) (zk : ZkConn) (e : Err) (hn : ¬ reservedName k f)
    (he : zk.existsErr (znodeOf path) = some e) :
    visitZKReverse k fs path f werr zk
      = (some e, afterExists zk (znodeOf path) false (some e)) := by
  unfold reservedName at hn
  simp [visitZKReverse, hn, ZkConn.Exists, he, afterExists]

theorem vzr_present (k : Consts) (fs : FileSys) (path : Str) (f : FileInfo)
    (werr : Option Err) (zk : ZkConn) (hn : ¬ reservedName k f)
    (he : zk.existsErr (znodeOf path) = none)
    (hp : (lookupNode (znodeOf path) zk.nodes).isSome = true) :
    visitZKReverse k fs path f werr zk
      = (none, afterExists zk (znodeOf path) true none) := by
  unfold reservedName at hn
  simp [visitZKReverse, hn, ZkConn.Exists, he, hp, afterExists]

theorem vzr_notDir (k : Consts) (fs : FileSys) (path : Str) (f : FileInfo)
    (werr : Option Err) (zk : ZkConn) (hn : ¬ reservedName k f)
    (he : zk.existsErr (znodeOf path) = none)
    (hp : (lookupNode (znodeOf path) zk.nodes).isSome = false)
    (hd : f.IsDir = false) :
    visitZKReverse k fs path f werr zk
      = (none, afterExists zk (znodeOf path) false none) := by
  unfold reservedName at hn
  simp [visitZKReverse, hn, ZkConn.Exists, he, hp, hd, afterExists]

theorem vzr_leaf (k : Consts) (fs : FileSys) (path : Str) (f : FileInfo)
    (werr : Option Err) (zk : ZkConn) (c : Bytes) (hn : ¬ reservedName k f)
    (he : zk.existsErr (znodeOf path) = none)
    (hp : (lookupNode (znodeOf path) zk.nodes).isSome = false)
    (hd : f.IsDir = true)
    (hs : fs.Stat (filepath_Join path k.CONTENT_FILE) = none)
    (hr : fs.ReadFile (filepath_Join path k.CONTENT_FILE) = (c, none)) :
    visitZKReverse k fs path f werr zk
      = (none, ((afterExists zk (znodeOf path) false none).Create (znodeOf path) c).2) := by
  unfold reservedName at hn
  simp [visitZKReverse, hn, ZkConn.Exists, he, hp, hd, hs, hr, readc, afterExists]

theorem vzr_readFail (k : Consts) (fs : FileSys) (path : Str) (f : FileInfo)
    (werr : Option Err) (zk : ZkConn) (c : Bytes) (e : Err) (hn : ¬ reservedName k f)
    (he : zk.existsErr (znodeOf path) = none)
    (hp : (lookupNode (znodeOf path) zk.nodes).isSome = false)
    (hd : f.IsDir = true)
    (hs : fs.Stat (filepath_Join path k.CONTENT_FILE) = none)
    (hr : fs.ReadFile (filepath_Join path k.CONTENT_FILE) = (c, some e)) :
    visitZKReverse k fs path f werr zk
      = (some e, afterExists zk (znodeOf path) false none) := by
  unfold reservedName at hn
  simp [visitZKReverse, hn, ZkConn.Exists, he, hp, hd, hs, hr, readc, afterExists]

theorem vzr_branch (k : Consts) (fs : FileSys) (path : Str) (f : FileInfo)
    (werr : Option Err) (zk : ZkConn) (hn : ¬ reservedName k f)
    (he : zk.existsErr (znodeOf path) = none)
    (hp : (lookupNode (znodeOf path) zk.nodes).isSome = false)
    (hd : f.IsDir = true)
    (hs : fs.Stat (filepath_Join path k.CONTENT_FILE) ≠ none) :
    visitZKReverse k fs path f werr zk
      = (none, ((afterExists zk (znodeOf path) false none).Create (znodeOf path) []).2) := by
  unfold reservedName at hn
  simp [visitZKReverse, hn, ZkConn.Exists, he, hp, hd, hs, afterExists]

theorem vzr_cases (k : Consts) (fs : FileSys) (path : Str) (f : FileInfo)
    (werr : Option Err) (zk : ZkConn) :
    (reservedName k f ∧ visitZKReverse k fs path f werr zk = (none, zk)) ∨
    (¬ reservedName k f ∧ ∃ present err r,
      visitZKReverse k fs path f werr zk = (r, afterExists zk (znodeOf path) present err)) ∨
    (¬ reservedName k f ∧ f.IsDir = true ∧ zk.existsErr (znodeOf path) = none ∧
      (lookupNode (znodeOf path) zk.nodes).isSome = false ∧ ∃ c,
      visitZKReverse k fs path f werr zk
        = (none, ((afterExists zk (znodeOf path) false none).Create (znodeOf path) c).2)) := by
  by_cases hn : reservedName k f
  · exact Or.inl ⟨hn, vzr_reserved k fs path f werr zk hn⟩
  · right
    cases he : zk.existsErr (znodeOf path) with
    | some e => exact Or.inl ⟨hn, _, _, _, vzr_existsFail k fs path f werr zk e hn he⟩
    | none =>
      cases hp : (lookupNode (znodeOf path) zk.nodes).isSome with
      | true => exact Or.inl ⟨hn, _, _, _, vzr_present k fs path f werr zk hn he hp⟩
      | false =>
        cases hd : f.IsDir with
        | false => exact Or.inl ⟨hn, _, _, _, vzr_notDir k fs path f werr zk hn he hp hd⟩
        | true =>
          by_cases hs : fs.Stat (filepath_Join path k.CONTENT_FILE) = none
          · rcases hr : fs.ReadFile (filepath_Join path k.CONTENT_FILE) with ⟨c, _ | e⟩
            · exact Or.inr ⟨hn, rfl, rfl, rfl, c, vzr_leaf k fs path f werr zk c hn he hp hd hs hr⟩
            · exact Or.inl ⟨hn, _, _, _, vzr_readFail k fs path f werr zk c e hn he hp hd hs hr⟩
          · exact Or.inr ⟨hn, rfl, rfl, rfl, [], vzr_branch k fs path f werr zk hn he hp hd hs⟩

theorem Walk_append (fn : Str → FileInfo → Option Err → ZkConn → Option Err × ZkConn)
    (pre rest : List (Str × FileInfo)) (zk : ZkConn) :
    Walk fn (pre ++ rest) zk =
      match Walk fn pre zk with
      | (some e, z) => (some e, z)
      | (none, z) => Walk fn rest z := by
  induction pre generalizing zk with
  | nil => simp [Walk]
  | cons x pre ih =>
    obtain ⟨path, f⟩ := x
    simp only [List.cons_append, Walk]
    rcases h : fn path f none zk with ⟨_ | e, z⟩
    · simp [ih]
    · simp

/-- A property of the connection kept by every `visitZKReverse` call is kept by the walk. -/
theorem Walk_preserves (k : Consts) (fs : FileSys) (P : ZkConn → Prop)
    (step : ∀ path f zk, P zk → P (visitZKReverse k fs path f none zk).2)
    (entries : List (Str × FileInfo)) (zk : ZkConn) (h : P zk) :
    P (Walk (visitZKReverse k fs) entries zk).2 := by
  induction entries generalizing zk with
  | nil => simpa [Walk] using h
  | cons x rest ih =>
    obtain ⟨path, f⟩ := x
    have hs := step path f zk h
    simp only [Walk]
    rcases hv : visitZKReverse k fs path f none zk with ⟨_ | e, z⟩
    · rw [hv] at hs; exact ih z hs
    · rw [hv] at hs; exact hs

theorem lookupNode_append_some (p : Str) (d : Bytes) (xs ys : List (Str × Bytes))
    (h : lookupNode p xs = some d) : lookupNode p (xs ++ ys) = some d := by
  induction xs with
  | nil => simp [lookupNode] at h
  | cons x xs ih =>
    obtain ⟨q, e⟩ := x
    simp only [lookupNode, List.cons_append] at h ⊢
    split
    · rename_i hq; simpa [hq] using h
    · rename_i hq; simp only [hq, if_false] at h; exact ih h

theorem lookupNode_append_none (p : Str) (xs ys : List (Str × Bytes))
    (h : lookupNode p xs = none) : lookupNode p (xs ++ ys) = lookupNode p ys := by
  induction xs with
  | nil => rfl
  | cons x xs ih =>
    obtain ⟨q, e⟩ := x
    simp only [lookupNode, List.cons_append] at h ⊢
    split
    · rename_i hq; simp [hq] at h
    · rename_i hq; simp only [hq, if_false] at h; exact ih h

theorem Create_nodes (zk : ZkConn) (p : Str) (d : Bytes) :
    (zk.Create p d).2.nodes = zk.nodes ∨
    (zk.createError p = none ∧ (zk.Create p d).2.nodes = zk.nodes ++ [(p, d)]) := by
  unfold ZkConn.Create
  split
  · exact Or.inl rfl
  · rename_i h; exact Or.inr ⟨h, rfl⟩

theorem Create_calls (zk : ZkConn) (p : Str) (d : Bytes) :
    (zk.Create p d).2.calls = zk.calls ++ [.Create p d (zk.createError p)] := by
  unfold ZkConn.Create
  split
  · rename_i h; simp [h]
  · rename_i h; simp [h]

theorem guardedFrom_append_exists (prev : Option ZkCall) (a : List ZkCall)
    (z : Str) (present : Bool) (err : Option Err) (h : guardedFrom prev a) :
    guardedFrom prev (a ++ [.Exists z present err]) := by
  induction a generalizing prev with
  | nil => simp [guardedFrom]
  | cons c a ih =>
    cases c with
    | Exists p pr e => simp only [List.cons_append, guardedFrom] at h ⊢; exact ih _ h
    | Create q d e =>
      simp only [List.cons_append, guardedFrom] at h ⊢
      exact ⟨h.1, ih _ h.2⟩

theorem guardedFrom_append_create (prev : Option ZkCall) (a : List ZkCall)
    (z : Str) (c : Bytes) (e : Option Err) (h : guardedFrom prev a) :
    guardedFrom prev (a ++ [.Exists z false none, .Create z c e]) := by
  induction a generalizing prev with
  | nil => simp [guardedFrom]
  | cons x a ih =>
    cases x with
    | Exists p pr e => simp only [List.cons_append, guardedFrom] at h ⊢; exact ih _ h
    | Create q d e =>
      simp only [List.cons_append, guardedFrom] at h ⊢
      exact ⟨h.1, ih _ h.2⟩

/-- A property kept by the `visitZKReverse` call of every entry of the walk is kept by the
walk. -/
theorem Walk_preserves_mem (k : Consts) (fs : FileSys) (P : ZkConn → Prop)
    (all : List (Str × FileInfo))
    (step : ∀ path f zk, (path, f) ∈ all → P zk → P (visitZKReverse k fs path f none zk).2)
    (entries : List (Str × FileInfo)) (hsub : ∀ x ∈ entries, x ∈ all)
    (zk : ZkConn) (h : P zk) :
    P (Walk (visitZKReverse k fs) entries zk).2 := by
  induction entries generalizing zk with
  | nil => simpa [Walk] using h
  | cons x rest ih =>
    obtain ⟨path, f⟩ := x
    have hs := step path f zk (hsub _ (List.mem_cons_self _ _)) h
    have hsub2 : ∀ x ∈ rest, x ∈ all := fun x hx => hsub x (List.mem_cons_of_mem _ hx)
    simp only [Walk]
    rcases hv : visitZKReverse k fs path f none zk with ⟨_ | e, z⟩
    · rw [hv] at hs; exact ih hsub2 z hs
    · rw [hv] at hs; exact hs

theorem vzr_existsErr (k : Consts) (fs : FileSys) (path : Str) (f : FileInfo)
    (werr : Option Err) (zk : ZkConn) :
    (visitZKReverse k fs path f werr zk).2.existsErr = zk.existsErr := by
  rcases vzr_cases k fs path f werr zk with ⟨_, h⟩ | ⟨_, _, _, _, h⟩ | ⟨_, _, _, _, _, h⟩
  · rw [h]
  · rw [h]; rfl
  · rw [h, Create_existsErr]; rfl

theorem vzr_createErr (k : Consts) (fs : FileSys) (path : Str) (f : FileInfo)
    (werr : Option Err) (zk : ZkConn) :
    (visitZKReverse k fs path f werr zk).2.createErr = zk.createErr := by
  rcases vzr_cases k fs path f werr zk with ⟨_, h⟩ | ⟨_, _, _, _, h⟩ | ⟨_, _, _, _, _, h⟩
  · rw [h]
  · rw [h]; rfl
  · rw [h, Create_createErr]; rfl

theorem Walk_existsErr (k : Consts) (fs : FileSys) (entries : List (Str × FileInfo))
    (zk : ZkConn) : (Walk (visitZKReverse k fs) entries zk).2.existsErr = zk.existsErr :=
  Walk_preserves k fs (fun z => z.existsErr = zk.existsErr)
    (fun path f z hz => by show _ = _; rw [vzr_existsErr]; exact hz) entries zk rfl

theorem Walk_createErr (k : Consts) (fs : FileSys) (entries : List (Str × FileInfo))
    (zk : ZkConn) : (Walk (visitZKReverse k fs) entries zk).2.createErr = zk.createErr :=
  Walk_preserves k fs (fun z => z.createErr = zk.createErr)
    (fun path f z hz => by show _ = _; rw [vzr_createErr]; exact hz) entries zk rfl

/-- What one `visitZKReverse` call does to the znodes: nothing, or it adds the decoded path
of a non-reserved directory entry, absent until then, whose parent is present. -/
theorem vzr_nodes (k : Consts) (fs : FileSys) (path : Str) (f : FileInfo)
    (werr : Option Err) (zk : ZkConn) :
    (visitZKReverse k fs path f werr zk).2.nodes = zk.nodes ∨
    (¬ reservedName k f ∧ f.IsDir = true ∧ lookupNode (znodeOf path) zk.nodes = none ∧ ∃ c,
      (visitZKReverse k fs path f werr zk).2.nodes = zk.nodes ++ [(znodeOf path, c)]) := by
  rcases vzr_cases k fs path f werr zk with ⟨_, h⟩ | ⟨_, _, _, _, h⟩ | ⟨hn, hd, _, hp, c, h⟩
  · rw [h]; exact Or.inl rfl
  · rw [h]; exact Or.inl rfl
  · rw [h]
    rcases Create_nodes (afterExists zk (znodeOf path) false none) (znodeOf path) c with hc | ⟨_, hc⟩
    · exact Or.inl hc
    · refine Or.inr ⟨hn, hd, ?_, c, hc⟩
      cases hl : lookupNode (znodeOf path) zk.nodes with
      | none => rfl
      | some d => rw [hl] at hp; simp at hp

/-- What one `visitZKReverse` call adds to the call log. -/
theorem vzr_calls (k : Consts) (fs : FileSys) (path : Str) (f : FileInfo)
    (werr : Option Err) (zk : ZkConn) :
    (visitZKReverse k fs path f werr zk).2.calls = zk.calls ∨
    (∃ present err,
      (visitZKReverse k fs path f werr zk).2.calls
        = zk.calls ++ [.Exists (znodeOf path) present err]) ∨
    (f.IsDir = true ∧ ∃ c e,
      (visitZKReverse k fs path f werr zk).2.calls
        = zk.calls ++ [.Exists (znodeOf path) false none, .Create (znodeOf path) c e]) := by
  rcases vzr_cases k fs path f werr zk with ⟨_, h⟩ | ⟨_, _, _, _, h⟩ | ⟨_, hd, _, _, c, h⟩
  · rw [h]; exact Or.inl rfl
  · rw [h]; exact Or.inr (Or.inl ⟨_, _, rfl⟩)
  · rw [h, Create_calls]
    exact Or.inr (Or.inr ⟨hd, c,
      (afterExists zk (znodeOf path) false none).createError (znodeOf path),
      by simp [afterExists]⟩)

/-- C3. Restore is additive-only: in the calls the restore walk makes, every `Create` comes
right after an `Exists` on the same path that reported it absent; hence every znode that
exists before the walk exists after it with the same payload, whatever the mirror holds. -/
theorem restore_additive_only (k : Consts) (fs : FileSys) (entries : List (Str × FileInfo))
    (zk : ZkConn) :
    (∃ new, (Walk (visitZKReverse k fs) entries zk).2.calls = zk.calls ++ new ∧ guarded new) ∧
    (∀ p d, lookupNode p zk.nodes = some d →
      lookupNode p (Walk (visitZKReverse k fs) entries zk).2.nodes = some d) := by
  refine Walk_preserves k fs
    (fun z => (∃ new, z.calls = zk.calls ++ new ∧ guarded new) ∧
      (∀ p d, lookupNode p zk.nodes = some d → lookupNode p z.nodes = some d))
    ?_ entries zk ⟨⟨[], by simp, trivial⟩, fun _ _ h => h⟩
  rintro path f z ⟨⟨new, hnew, hg⟩, hkeep⟩
  constructor
  · rcases vzr_calls k fs path f none z with h | ⟨pr, e, h⟩ | ⟨_, c, e, h⟩
    · exact ⟨new, by rw [h, hnew], hg⟩
    · exact ⟨new ++ [ZkCall.Exists (znodeOf path) pr e], by rw [h, hnew, List.append_assoc],
        guardedFrom_append_exists none new (znodeOf path) pr e hg⟩
    · exact ⟨new ++ [ZkCall.Exists (znodeOf path) false none, ZkCall.Create (znodeOf path) c e],
        by rw [h, hnew, List.append_assoc],
        guardedFrom_append_create none new (znodeOf path) c e hg⟩
  · intro p d hp
    rcases vzr_nodes k fs path f none z with h | ⟨_, _, _, c, h⟩
    · rw [h]; exact hkeep p d hp
    · rw [h]; exact lookupNode_append_some _ _ _ _ (hkeep p d hp)

/-- C3, at the mirror `mirrorXY` (content file of `x` holds `hello`) restored into a tree
where `/x` exists with payload `old`: `/x` keeps `old`. -/
theorem restore_additive_only_witness :
    lookupNode "/x".toList (emptyTree ++ [("/x".toList, "old".toList)]) = some "old".toList ∧
    lookupNode "/x".toList
      (Walk (visitZKReverse burry (fsOf mirrorXY)) (snapshotEntries burry mirrorXY)
        (connTo (emptyTree ++ [("/x".toList, "old".toList)]))).2.nodes = some "old".toList :=
  ⟨by decide,
   (restore_additive_only burry (fsOf mirrorXY) (snapshotEntries burry mirrorXY)
      (connTo (emptyTree ++ [("/x".toList, "old".toList)]))).2 _ _ (by decide)⟩

/-- C10 as stated fails: the entry `a/.burrymeta`, which is neither the snapshot root
directory nor the metadata marker at the root level, is skipped without any call. -/
theorem reserved_skip_counterexample :
    (visitZKReverse burry noFiles "a/.burrymeta".toList ⟨".burrymeta".toList, false⟩ none
      (connTo emptyTree)).1 = none ∧
    (visitZKReverse burry noFiles "a/.burrymeta".toList ⟨".burrymeta".toList, false⟩ none
      (connTo emptyTree)).2.calls = [] ∧
    "a/.burrymeta".toList ≠ ['.'] ∧
    "a/.burrymeta".toList ≠ burry.BURRYMETA_FILE := by
  decide

/-- C10, amended. `visitZKReverse` returns nil without any call exactly when the base name
of the entry is the metadata marker name or the snapshot id, at any depth; every other
entry has `Exists` queried first for its decoded path. A snapshot holding only the
snapshot directory and the metadata marker restores with no call and reports success. -/
theorem reserved_names_skipped (k : Consts) (fs : FileSys) (path : Str) (f : FileInfo)
    (werr : Option Err) (zk : ZkConn) :
    (((visitZKReverse k fs path f werr zk).1 = none ∧
        (visitZKReverse k fs path f werr zk).2.calls = zk.calls) ↔ reservedName k f) ∧
    (¬ reservedName k f → ∃ present err more,
      (visitZKReverse k fs path f werr zk).2.calls
        = zk.calls ++ ZkCall.Exists (znodeOf path) present err :: more) ∧
    (∀ lookupst : Int, lookupst > 0 →
      restoreZK k lookupst fs
        [(['.'], ⟨k.snapshotid, true⟩), (k.BURRYMETA_FILE, ⟨k.BURRYMETA_FILE, false⟩)] zk
        = (true, zk)) := by
  have key : ¬ reservedName k f → ∃ present err more,
      (visitZKReverse k fs path f werr zk).2.calls
        = zk.calls ++ ZkCall.Exists (znodeOf path) present err :: more := by
    intro hn
    rcases vzr_cases k fs path f werr zk with ⟨hr, _⟩ | ⟨_, pr, e, r, h⟩ | ⟨_, _, _, _, c, h⟩
    · exact absurd hr hn
    · exact ⟨pr, e, [], by rw [h]; rfl⟩
    · exact ⟨false, none, [ZkCall.Create (znodeOf path) c
          ((afterExists zk (znodeOf path) false none).createError (znodeOf path))],
        by rw [h, Create_calls]; simp [afterExists]⟩
  refine ⟨⟨?_, ?_⟩, key, ?_⟩
  · rintro ⟨_, hc⟩
    by_contra hn
    obtain ⟨pr, e, more, h⟩ := key hn
    rw [h] at hc
    have := congrArg List.length hc
    simp at this
  · intro hr
    rw [vzr_reserved k fs path f werr zk hr]
    exact ⟨rfl, rfl⟩
  · intro lookupst hpos
    have h1 : reservedName k ⟨k.snapshotid, true⟩ := Or.inr rfl
    have h2 : reservedName k ⟨k.BURRYMETA_FILE, false⟩ := Or.inl rfl
    simp [restoreZK, hpos, Walk, vzr_reserved _ _ _ _ _ _ h1, vzr_reserved _ _ _ _ _ _ h2]

/-- C10, amended, at the directory entry `a/x` of a burry snapshot: `Exists("/a/x")` is the
first call made. -/
theorem reserved_names_skipped_witness :
    ¬ reservedName burry ⟨"x".toList, true⟩ ∧
    ∃ present err more,
      (visitZKReverse burry noFiles "a/x".toList ⟨"x".toList, true⟩ none
        (connTo emptyTree)).2.calls
        = (connTo emptyTree).calls ++ ZkCall.Exists (znodeOf "a/x".toList) present err :: more :=
  ⟨by decide,
   (reserved_names_skipped burry noFiles "a/x".toList ⟨"x".toList, true⟩ none
      (connTo emptyTree)).2.1 (by decide)⟩

/-- C5 fails on the code. The directory entry `x` has no content file and `/x` is absent;
`Create("/x", [])` is issued and fails, yet `visitZKReverse` returns nil, the walk goes on
to the next entry `y`, and `restoreZK` reports success. The same holds for the leaf
entry `x` of `mirrorXY`, created from its content file. -/
theorem create_failure_not_escalated :
    (visitZKReverse burry noFiles "x".toList ⟨"x".toList, true⟩ none
      (connCreateFailing emptyTree (.zk 4))).1 = none ∧
    (visitZKReverse burry noFiles "x".toList ⟨"x".toList, true⟩ none
      (connCreateFailing emptyTree (.zk 4))).2.calls
      = [.Exists "/x".toList false none, .Create "/x".toList [] (some (.zk 4))] ∧
    (restoreZK burry 1 noFiles
      [(['.'], ⟨burry.snapshotid, true⟩), ("x".toList, ⟨"x".toList, true⟩),
       ("y".toList, ⟨"y".toList, true⟩)]
      (connCreateFailing emptyTree (.zk 4))).1 = true ∧
    (restoreZK burry 1 noFiles
      [(['.'], ⟨burry.snapshotid, true⟩), ("x".toList, ⟨"x".toList, true⟩),
       ("y".toList, ⟨"y".toList, true⟩)]
      (connCreateFailing emptyTree (.zk 4))).2.calls
      = [.Exists "/x".toList false none, .Create "/x".toList [] (some (.zk 4)),
         .Exists "/y".toList false none, .Create "/y".toList [] (some (.zk 4))] ∧
    (visitZKReverse burry (fsOf mirrorXY) "x".toList ⟨"x".toList, true⟩ none
      (connCreateFailing emptyTree (.zk 4))).1 = none ∧
    (visitZKReverse burry (fsOf mirrorXY) "x".toList ⟨"x".toList, true⟩ none
      (connCreateFailing emptyTree (.zk 4))).2.calls
      = [.Exists "/x".toList false none, .Create "/x".toList "hello".toList (some (.zk 4))] := by
  decide

/-- C6. When the walk reaches a non-reserved entry and `Exists` fails for its decoded
path, `visitZKReverse` returns that error having made the `Exists` call only; the walk
ends there with that error (the calls made are those of the earlier entries and
this one `Exists`, and no znode is added), and `restoreZK` returns false. -/
theorem exists_failure_aborts (k : Consts) (fs : FileSys) (pre rest : List (Str × FileInfo))
    (path : Str) (f : FileInfo) (zk zk1 : ZkConn) (e : Err) (lookupst : Int)
    (hn : ¬ reservedName k f)
    (hpre : Walk (visitZKReverse k fs) pre zk = (none, zk1))
    (he : zk.existsErr (znodeOf path) = some e) :
    visitZKReverse k fs path f none zk1
      = (some e, afterExists zk1 (znodeOf path) false (some e)) ∧
    Walk (visitZKReverse k fs) (pre ++ (path, f) :: rest) zk
      = (some e, afterExists zk1 (znodeOf path) false (some e)) ∧
    (afterExists zk1 (znodeOf path) false (some e)).calls
      = zk1.calls ++ [ZkCall.Exists (znodeOf path) false (some e)] ∧
    (afterExists zk1 (znodeOf path) false (some e)).nodes = zk1.nodes ∧
    (restoreZK k lookupst fs (pre ++ (path, f) :: rest) zk).1 = false := by
  have he1 : zk1.existsErr (znodeOf path) = some e := by
    have := Walk_existsErr k fs pre zk
    rw [hpre] at this
    simp only at this
    rw [this]; exact he
  have hstep := vzr_existsFail k fs path f none zk1 e hn he1
  have hwalk : Walk (visitZKReverse k fs) (pre ++ (path, f) :: rest) zk
      = (some e, afterExists zk1 (znodeOf path) false (some e)) := by
    rw [Walk_append, hpre]
    simp [Walk, hstep]
  refine ⟨hstep, hwalk, rfl, rfl, ?_⟩
  unfold restoreZK
  split
  · rw [hwalk]
  · rfl

/-- C6, at the mirror `mirrorXY` restored into the empty tree over a connection on which
`Exists("/y")` fails: the walk stops at `y` after restoring `x`. -/
theorem exists_failure_aborts_witness :
    Walk (visitZKReverse burry (fsOf mirrorXY))
      ([(['.'], ⟨burry.snapshotid, true⟩), ("x".toList, ⟨"x".toList, true⟩),
        ("x/content".toList, ⟨"content".toList, false⟩)] ++
        ("y".toList, ⟨"y".toList, true⟩) :: listing "y".toList
          (.dir "z".toList
            (.dir "w".toList (.file "content".toList "world".toList .nil) .nil) .nil))
      (connExistsFailing emptyTree "/y".toList (.zk 4))
      = (some (.zk 4),
          afterExists
            (Walk (visitZKReverse burry (fsOf mirrorXY))
              [(['.'], ⟨burry.snapshotid, true⟩), ("x".toList, ⟨"x".toList, true⟩),
               ("x/content".toList, ⟨"content".toList, false⟩)]
              (connExistsFailing emptyTree "/y".toList (.zk 4))).2
            (znodeOf "y".toList) false (some (.zk 4))) :=
  (exists_failure_aborts burry (fsOf mirrorXY) _ _ "y".toList ⟨"y".toList, true⟩
    (connExistsFailing emptyTree "/y".toList (.zk 4)) _ (.zk 4) 1
    (by decide) (by rfl) (by decide)).2.1

/-- C9. For a non-reserved entry whose decoded path `Exists` reports absent: a directory
whose content file reads as `c` gets exactly one `Create` at the decoded path with payload
`c`; a directory without content file gets exactly one `Create` there with the empty
payload; an entry that is not a directory gets no `Create`. Restoring the mirror
`x/content = "hello"`, `y/`, `y/z/`, `y/z/w/content = "world"` into the empty tree succeeds
and creates exactly `/x`, `/y`, `/y/z`, `/y/z/w` in this order, with these payloads. -/
theorem restore_creates_from_mirror :
    (∀ (k : Consts) (fs : FileSys) (path : Str) (f : FileInfo) (werr : Option Err)
        (zk : ZkConn),
      ¬ reservedName k f → zk.existsErr (znodeOf path) = none →
      lookupNode (znodeOf path) zk.nodes = none →
      (f.IsDir = true → ∀ c, fs.Stat (filepath_Join path k.CONTENT_FILE) = none →
        fs.ReadFile (filepath_Join path k.CONTENT_FILE) = (c, none) →
        ∃ e, (visitZKReverse k fs path f werr zk).2.calls
          = zk.calls ++ [ZkCall.Exists (znodeOf path) false none,
                         ZkCall.Create (znodeOf path) c e]) ∧
      (f.IsDir = true → fs.Stat (filepath_Join path k.CONTENT_FILE) ≠ none →
        ∃ e, (visitZKReverse k fs path f werr zk).2.calls
          = zk.calls ++ [ZkCall.Exists (znodeOf path) false none,
                         ZkCall.Create (znodeOf path) [] e]) ∧
      (f.IsDir = false →
        (visitZKReverse k fs path f werr zk).2.calls
          = zk.calls ++ [ZkCall.Exists (znodeOf path) false none])) ∧
    (restoreZK burry 1 (fsOf mirrorXY) (snapshotEntries burry mirrorXY) (connTo emptyTree)).1
      = true ∧
    ((restoreZK burry 1 (fsOf mirrorXY) (snapshotEntries burry mirrorXY)
        (connTo emptyTree)).2.calls.filter ZkCall.isCreate)
      = [.Create "/x".toList "hello".toList none, .Create "/y".toList [] none,
         .Create "/y/z".toList [] none, .Create "/y/z/w".toList "world".toList none] ∧
    (restoreZK burry 1 (fsOf mirrorXY) (snapshotEntries burry mirrorXY) (connTo emptyTree)).2.nodes
      = emptyTree ++ [("/x".toList, "hello".toList), ("/y".toList, []), ("/y/z".toList, []),
          ("/y/z/w".toList, "world".toList)] := by
  refine ⟨?_, by decide, by decide, by decide⟩
  intro k fs path f werr zk hn he hl
  have hp : (lookupNode (znodeOf path) zk.nodes).isSome = false := by rw [hl]; rfl
  refine ⟨?_, ?_, ?_⟩
  · intro hd c hs hr
    refine ⟨(afterExists zk (znodeOf path) false none).createError (znodeOf path), ?_⟩
    rw [vzr_leaf k fs path f werr zk c hn he hp hd hs hr, Create_calls]
    simp [afterExists]
  · intro hd hs
    refine ⟨(afterExists zk (znodeOf path) false none).createError (znodeOf path), ?_⟩
    rw [vzr_branch k fs path f werr zk hn he hp hd hs, Create_calls]
    simp [afterExists]
  · intro hd
    rw [vzr_notDir k fs path f werr zk hn he hp hd]
    rfl

/-- C9, at the directory entry `x` of `mirrorXY` (content file `hello`) with `/x` absent:
one `Exists("/x")`, then one `Create("/x", "hello")`. -/
theorem restore_creates_from_mirror_witness :
    ∃ e, (visitZKReverse burry (fsOf mirrorXY) "x".toList ⟨"x".toList, true⟩ none
        (connTo emptyTree)).2.calls
      = (connTo emptyTree).calls ++ [ZkCall.Exists (znodeOf "x".toList) false none,
          ZkCall.Create (znodeOf "x".toList) "hello".toList e] :=
  (restore_creates_from_mirror.1 burry (fsOf mirrorXY) "x".toList ⟨"x".toList, true⟩ none
    (connTo emptyTree) (by decide) (by rfl) (by decide)).1 (by rfl) "hello".toList
    (by decide) (by decide)

/-- C4 as stated fails: `/a/b` exists before the walk and has no child; the mirror holds
the directory `a/b/c`; after the walk `/a/b/c` is a child of `/a/b`. -/
theorem children_unchanged_counterexample :
    lookupNode "/a/b".toList treeAB = some [] ∧
    isChildOf "/a/b/c".toList "/a/b".toList ∧
    lookupNode "/a/b/c".toList treeAB = none ∧
    lookupNode "/a/b/c".toList
      (Walk (visitZKReverse burry (fsOf mirrorABC)) (snapshotEntries burry mirrorABC)
        (connTo treeAB)).2.nodes = some [] := by
  decide

/-- C4, amended. For a path `p` that exists before the restore walk and every child path
`q` of `p`: if `q` exists before the walk it exists after it with the same payload, and if
`q` exists after the walk it either existed before, with that payload, or was absent and
is the decoded path of a non-reserved directory entry of the mirror. -/
theorem children_kept_and_only_added (k : Consts) (fs : FileSys)
    (entries : List (Str × FileInfo)) (zk : ZkConn) (p q : Str)
    (_hp : (lookupNode p zk.nodes).isSome = true) (_hq : isChildOf q p) :
    (∀ d, lookupNode q zk.nodes = some d →
      lookupNode q (Walk (visitZKReverse k fs) entries zk).2.nodes = some d) ∧
    (∀ d, lookupNode q (Walk (visitZKReverse k fs) entries zk).2.nodes = some d →
      lookupNode q zk.nodes = some d ∨
      (lookupNode q zk.nodes = none ∧ ∃ path f, (path, f) ∈ entries ∧ f.IsDir = true ∧
        ¬ reservedName k f ∧ znodeOf path = q)) := by
  refine Walk_preserves_mem k fs
    (fun z => (∀ d, lookupNode q zk.nodes = some d → lookupNode q z.nodes = some d) ∧
      (∀ d, lookupNode q z.nodes = some d →
        lookupNode q zk.nodes = some d ∨
        (lookupNode q zk.nodes = none ∧ ∃ path f, (path, f) ∈ entries ∧ f.IsDir = true ∧
          ¬ reservedName k f ∧ znodeOf path = q)))
    entries ?_ entries (fun _ h => h) zk ⟨fun _ h => h, fun _ h => Or.inl h⟩
  rintro path f z hmem ⟨hkeep, hnew⟩
  rcases vzr_nodes k fs path f none z with h | ⟨hn, hd, habs, c, h⟩
  · rw [h]; exact ⟨hkeep, hnew⟩
  · rw [h]
    refine ⟨fun d hd0 => lookupNode_append_some _ _ _ _ (hkeep d hd0), ?_⟩
    intro d hd1
    cases hz : lookupNode q z.nodes with
    | some d0 =>
      rw [lookupNode_append_some _ _ _ _ hz] at hd1
      exact hnew d (by rw [hz, hd1])
    | none =>
      rw [lookupNode_append_none _ _ _ hz] at hd1
      have hqz : znodeOf path = q := by
        by_contra hne
        simp [lookupNode, hne] at hd1
      right
      refine ⟨?_, path, f, hmem, hd, hn, hqz⟩
      cases h0 : lookupNode q zk.nodes with
      | none => rfl
      | some d0 => rw [hkeep d0 h0] at hz; simp at hz

/-- C4, amended, at the tree `/`, `/a`, `/a/b` and the mirror `a/b/c/`: the child `/a/b`
of `/a` keeps its payload. -/
theorem children_kept_and_only_added_witness :
    lookupNode "/a/b".toList
      (Walk (visitZKReverse burry (fsOf mirrorABC)) (snapshotEntries burry mirrorABC)
        (connTo treeAB)).2.nodes = some [] :=
  (children_kept_and_only_added burry (fsOf mirrorABC) (snapshotEntries burry mirrorABC)
    (connTo treeAB) "/a".toList "/a/b".toList (by decide) (by decide)).1 [] (by decide)

/-! ### The path codec -/

theorem token_eq : BURRY_ESC_COLON = 'B' :: tokenTail := by decide

theorem tokenTail_chars : ∀ x ∈ tokenTail, x ≠ 'B' ∧ x ≠ ':' := by decide

theorem replaceFrom_skip (old new : Str) (xs s : Str) :
    replaceFrom old new xs.length (xs ++ s) = replaceFrom old new 0 s := by
  induction xs with
  | nil => rfl
  | cons x xs ih => simpa [replaceFrom] using ih

theorem replaceFrom_zero_cons (old new : Str) (c : Char) (cs : Str) :
    replaceFrom old new 0 (c :: cs) =
      if old.isPrefixOf (c :: cs) then new ++ replaceFrom old new (old.length - 1) cs
      else c :: replaceFrom old new 0 cs := by
  rw [replaceFrom]

theorem escape_nil : strings_Replace [] [':'] BURRY_ESC_COLON = [] := rfl

theorem escape_colon (q : Str) :
    strings_Replace (':' :: q) [':'] BURRY_ESC_COLON
      = BURRY_ESC_COLON ++ strings_Replace q [':'] BURRY_ESC_COLON := by
  simp [strings_Replace, replaceFrom, List.isPrefixOf]

theorem escape_other (c : Char) (q : Str) (hc : c ≠ ':') :
    strings_Replace (c :: q) [':'] BURRY_ESC_COLON
      = c :: strings_Replace q [':'] BURRY_ESC_COLON := by
  have : (':' == c) = false := by simpa using fun h => hc h.symm
  simp [strings_Replace, replaceFrom, List.isPrefixOf, this]

theorem unescape_token (s : Str) :
    strings_Replace (BURRY_ESC_COLON ++ s) BURRY_ESC_COLON [':']
      = ':' :: strings_Replace s BURRY_ESC_COLON [':'] := by
  have hp : BURRY_ESC_COLON.isPrefixOf ('B' :: (tokenTail ++ s)) = true := by
    rw [List.isPrefixOf_iff_prefix, token_eq]
    exact ⟨s, rfl⟩
  have hlen : BURRY_ESC_COLON.length - 1 = tokenTail.length := by decide
  have happ : BURRY_ESC_COLON ++ s = 'B' :: (tokenTail ++ s) := by rw [token_eq]; rfl
  unfold strings_Replace
  rw [happ, replaceFrom_zero_cons, if_pos hp, hlen, replaceFrom_skip]
  rfl

theorem unescape_other (c : Char) (s : Str) (h : ¬ BURRY_ESC_COLON <+: c :: s) :
    strings_Replace (c :: s) BURRY_ESC_COLON [':']
      = c :: strings_Replace s BURRY_ESC_COLON [':'] := by
  have hp : BURRY_ESC_COLON.isPrefixOf (c :: s) = false := by
    rw [← Bool.not_eq_true, List.isPrefixOf_iff_prefix]; exact h
  unfold strings_Replace
  rw [replaceFrom_zero_cons, hp]
  rfl

/-- A string without `B` and `:` that starts the encoding of `q` starts `q` itself. -/
theorem prefix_of_escape (t : Str) (ht : ∀ x ∈ t, x ≠ 'B' ∧ x ≠ ':') (q : Str)
    (h : t <+: strings_Replace q [':'] BURRY_ESC_COLON) : t <+: q := by
  induction t generalizing q with
  | nil => exact List.nil_prefix
  | cons x t ih =>
    have hx := ht x (List.mem_cons_self _ _)
    have ht2 : ∀ y ∈ t, y ≠ 'B' ∧ y ≠ ':' := fun y hy => ht y (List.mem_cons_of_mem _ hy)
    cases q with
    | nil => rw [escape_nil] at h; simp at h
    | cons c q =>
      by_cases hc : c = ':'
      · subst hc
        rw [escape_colon, token_eq, List.cons_append, List.cons_prefix_cons] at h
        exact absurd h.1 hx.1
      · rw [escape_other c q hc, List.cons_prefix_cons] at h
        rw [List.cons_prefix_cons]
        exact ⟨h.1, ih ht2 q h.2⟩

/-- Decoding the encoding of a string that holds no occurrence of the token gives the
string back. -/
theorem unescape_escape (q : Str) (h : ¬ BURRY_ESC_COLON <:+: q) :
    strings_Replace (strings_Replace q [':'] BURRY_ESC_COLON) BURRY_ESC_COLON [':'] = q := by
  induction q with
  | nil => rfl
  | cons c q ih =>
    have hq : ¬ BURRY_ESC_COLON <:+: q := fun hi => h (List.IsInfix.trans hi
      (List.infix_cons (List.infix_refl _)))
    by_cases hc : c = ':'
    · subst hc
      rw [escape_colon, unescape_token, ih hq]
    · rw [escape_other c q hc, unescape_other, ih hq]
      intro hpre
      apply h
      apply List.IsPrefix.isInfix
      rw [token_eq, List.cons_prefix_cons] at hpre
      rw [token_eq, List.cons_prefix_cons]
      exact ⟨hpre.1, prefix_of_escape tokenTail tokenTail_chars q hpre.2⟩

/-- C8. Path codec round trip: `ToTreePath (ToMirrorPath p) = p` for every absolute tree
path `p` that holds no occurrence of the token `BURRY_ESC_COLON`; `/a:b/c` is encoded as
`aBURRY_ESC_COLONb/c` and decoded back to `/a:b/c`. -/
theorem codec_round_trip :
    (∀ p : Str, p.head? = some '/' → ¬ BURRY_ESC_COLON <:+: p →
      ToTreePath (ToMirrorPath p) = p) ∧
    ToMirrorPath "/a:b/c".toList = "aBURRY_ESC_COLONb/c".toList ∧
    ToTreePath "aBURRY_ESC_COLONb/c".toList = "/a:b/c".toList := by
  refine ⟨?_, by decide, by decide⟩
  intro p habs hfree
  cases p with
  | nil => simp at habs
  | cons c q =>
    simp only [List.head?_cons, Option.some.injEq] at habs
    subst habs
    have hq : ¬ BURRY_ESC_COLON <:+: q := fun hi => hfree (List.IsInfix.trans hi
      (List.infix_cons (List.infix_refl _)))
    simp only [ToTreePath, ToMirrorPath, znodeOf]
    rw [unescape_escape q hq]

/-- C8, at the path `/a:b/c`. -/
theorem codec_round_trip_witness :
    ToTreePath (ToMirrorPath "/a:b/c".toList) = "/a:b/c".toList :=
  codec_round_trip.1 "/a:b/c".toList (by decide) (by decide)

/-! ### The backup walk -/

theorem newpath_eq_childPath (p c : Str) : newpath p c = childPath p c := by
  unfold newpath childPath
  split
  · rename_i h; subst h; rfl
  · simp

theorem names_length_pos (F : Forest) : (F.names.length > 0) ↔ F.isNil = false := by
  cases F <;> simp [Forest.names, Forest.isNil]

/-- With no failure, the loop of `visitZK` over the children `F` of the node at `p`
records the leaves below `p`. -/
theorem forEach_visitZK (zk : ZkReader) (F : Forest) :
    ∀ (p : Str) (fuel : Nat), serves zk p F → F.height ≤ fuel →
      forEach (fun c => visitZK zk fuel (newpath p c)) F.names = some (leavesBelow p F) := by
  induction F with
  | nil => intro p fuel _ _; rfl
  | cons n d kids rest ihk ihr =>
    intro p fuel hs hf
    obtain ⟨hch, hget, hsk, hsr⟩ := hs
    simp only [Forest.height] at hf
    have hfr : rest.height ≤ fuel := le_trans (le_max_right _ _) hf
    have hfk : kids.height + 1 ≤ fuel := le_trans (le_max_left _ _) hf
    obtain ⟨fuel1, rfl⟩ : ∃ m, fuel = m + 1 := ⟨fuel - 1, by omega⟩
    have hnode : visitZK zk (fuel1 + 1) (newpath p n)
        = some (if kids.isNil then [(childPath p n, d)] else leavesBelow (childPath p n) kids) := by
      rw [newpath_eq_childPath]
      simp only [visitZK, hch]
      cases hk : kids.isNil with
      | true =>
        have : ¬ (kids.names.length > 0) := by rw [names_length_pos, hk]; simp
        rw [if_neg this, hget hk]
        simp
      | false =>
        have : kids.names.length > 0 := by rw [names_length_pos, hk]
        rw [if_pos this, ihk (childPath p n) fuel1 hsk (by omega)]
        simp
    simp only [Forest.names, forEach, leavesBelow]
    rw [hnode, ihr p (fuel1 + 1) hsr hfr]

/-- C1. When the service holds a finite tree at `path` and no `Children` or `Get` call
fails, `visitZK(path, fn)` returns (for every recursion budget above the height of the
tree) having invoked `fn` on exactly the leaves of the subtree rooted at `path`, once
each, depth first in the order `Children` lists the child names, with the absolute path
of the leaf and its payload; a node that has children gets no invocation. -/
theorem visitZK_reaps_leaves (zk : ZkReader) (path : Str) (data : Bytes) (kids : Forest)
    (fuel : Nat) (hs : servesTree zk path data kids) (hf : kids.height < fuel) :
    visitZK zk fuel path = some (leaves path data kids) := by
  obtain ⟨hch, hget, hsk⟩ := hs
  obtain ⟨fuel1, rfl⟩ : ∃ m, fuel = m + 1 := ⟨fuel - 1, by omega⟩
  simp only [visitZK, hch, leaves]
  cases hk : kids.isNil with
  | true =>
    have : ¬ (kids.names.length > 0) := by rw [names_length_pos, hk]; simp
    rw [if_neg this, hget hk]
    simp
  | false =>
    have : kids.names.length > 0 := by rw [names_length_pos, hk]
    rw [if_pos this, forEach_visitZK zk kids path fuel1 hsk (by omega)]
    simp

/-- C1, at the server holding `/x` = `hello` and `/y/z/w` = `world`, walked from `/`. -/
theorem visitZK_reaps_leaves_witness :
    visitZK serverXY 4 "/".toList
      = some [("/x".toList, "hello".toList), ("/y/z/w".toList, "world".toList)] :=
  visitZK_reaps_leaves serverXY "/".toList [] treeXY 4 (by decide) (by decide)

theorem chainsBelow_leaves (F : Forest) :
    ∀ (chain : List Str) (p : Str),
      (chainsBelow chain p F).map (fun l => l.2) = leavesBelow p F := by
  induction F with
  | nil => intro chain p; rfl
  | cons n d kids rest ihk ihr =>
    intro chain p
    simp only [chainsBelow, leavesBelow, List.map_append, ihr]
    cases kids.isNil <;> simp [ihk]

/-- Every chain recorded below `p` goes through the chain down to `p`. -/
theorem chainsBelow_through (F : Forest) :
    ∀ (chain : List Str) (p : Str), ∀ l ∈ chainsBelow chain p F, ∀ n ∈ chain, n ∈ l.1 := by
  induction F with
  | nil => intro chain p l hl; simp [chainsBelow] at hl
  | cons n d kids rest ihk ihr =>
    intro chain p l hl m hm
    simp only [chainsBelow, List.mem_append] at hl
    rcases hl with hl | hl
    · cases hk : kids.isNil with
      | true =>
        rw [hk] at hl
        simp only [if_true, List.mem_singleton] at hl
        subst hl
        exact List.mem_append_left _ hm
      | false =>
        rw [hk] at hl
        simp only [Bool.false_eq_true, if_false] at hl
        exact ihk _ _ l hl m (List.mem_append_left _ hm)
    · exact ihr chain p l hl m hm

/-- No leaf below a node whose `Children` call fails is reachable. -/
theorem filter_chains_failed (cErr gErr : Str → Option Err) (F : Forest)
    (chain : List Str) (p : Str) (n : Str) (hn : n ∈ chain) (e : Err) (he : cErr n = some e) :
    (chainsBelow chain p F).filter (reachable cErr gErr) = [] := by
  rw [List.filter_eq_nil_iff]
  intro l hl
  have hmem := chainsBelow_through F chain p l hl n hn
  simp only [reachable, Bool.and_eq_true, List.all_eq_true, not_and]
  intro hall
  have := hall n hmem
  rw [he] at this
  simp at this

theorem visitZK_succ (zk : ZkReader) (fuel : Nat) (path : Str) :
    visitZK zk (fuel + 1) path =
      match zk.Children path with
      | (_, some _) => some []
      | (children, none) =>
        if children.length > 0 then
          forEach (fun c => visitZK zk fuel (newpath path c)) children
        else
          match zk.Get path with
          | (_, some _) => some []
          | (val, none) => some [(path, val)] := by
  rw [visitZK]

theorem withFaults_Children_some (zk : ZkReader) (cErr gErr : Str → Option Err) (p : Str)
    (e : Err) (h : cErr p = some e) :
    (withFaults zk cErr gErr).Children p = ([], some e) := by
  simp [withFaults, h]

theorem withFaults_Children_none (zk : ZkReader) (cErr gErr : Str → Option Err) (p : Str)
    (h : cErr p = none) : (withFaults zk cErr gErr).Children p = zk.Children p := by
  simp [withFaults, h]

theorem withFaults_Get_some (zk : ZkReader) (cErr gErr : Str → Option Err) (p : Str)
    (e : Err) (h : gErr p = some e) : (withFaults zk cErr gErr).Get p = ([], some e) := by
  simp [withFaults, h]

theorem withFaults_Get_none (zk : ZkReader) (cErr gErr : Str → Option Err) (p : Str)
    (h : gErr p = none) : (withFaults zk cErr gErr).Get p = zk.Get p := by
  simp [withFaults, h]

/-- The loop of `visitZK` over the children `F` of a node at `p` whose chain is free of
`Children` failures records the reachable leaves below `p`. -/
theorem forEach_visitZK_faults (zk : ZkReader) (cErr gErr : Str → Option Err) (F : Forest) :
    ∀ (chain : List Str) (p : Str) (fuel : Nat), serves zk p F → F.height ≤ fuel →
      (∀ n ∈ chain, cErr n = none) →
      forEach (fun c => visitZK (withFaults zk cErr gErr) fuel (newpath p c)) F.names
        = some (((chainsBelow chain p F).filter (reachable cErr gErr)).map (fun l => l.2)) := by
  induction F with
  | nil => intro chain p fuel _ _ _; rfl
  | cons n d kids rest ihk ihr =>
    intro chain p fuel hs hf hchain
    obtain ⟨hch, hget, hsk, hsr⟩ := hs
    simp only [Forest.height] at hf
    have hfr : rest.height ≤ fuel := le_trans (le_max_right _ _) hf
    have hfk : kids.height + 1 ≤ fuel := le_trans (le_max_left _ _) hf
    obtain ⟨fuel1, rfl⟩ : ∃ m, fuel = m + 1 := ⟨fuel - 1, by omega⟩
    have hnode : visitZK (withFaults zk cErr gErr) (fuel1 + 1) (newpath p n)
        = some (((if kids.isNil then [(chain ++ [childPath p n], childPath p n, d)]
            else chainsBelow (chain ++ [childPath p n]) (childPath p n) kids).filter
              (reachable cErr gErr)).map (fun l => l.2)) := by
      rw [newpath_eq_childPath, visitZK_succ]
      cases hce : cErr (childPath p n) with
      | some e =>
        have hnil : (if kids.isNil then [(chain ++ [childPath p n], childPath p n, d)]
            else chainsBelow (chain ++ [childPath p n]) (childPath p n) kids).filter
              (reachable cErr gErr) = [] := by
          cases hk : kids.isNil with
          | true => simp [reachable, hce]
          | false =>
            simp only [Bool.false_eq_true, if_false]
            exact filter_chains_failed cErr gErr kids _ _ (childPath p n) (by simp) e hce
        rw [hnil, withFaults_Children_some zk cErr gErr _ e hce]
        rfl
      | none =>
        have hchain2 : ∀ m ∈ chain ++ [childPath p n], cErr m = none := by
          intro m hm
          rcases List.mem_append.1 hm with h | h
          · exact hchain m h
          · simp only [List.mem_singleton] at h; rw [h]; exact hce
        rw [withFaults_Children_none zk cErr gErr _ hce, hch]
        cases hk : kids.isNil with
        | true =>
          have hlen : ¬ (kids.names.length > 0) := by rw [names_length_pos, hk]; simp
          have hall : (chain ++ [childPath p n]).all (fun n => (cErr n).isNone) = true := by
            rw [List.all_eq_true]; intro m hm; rw [hchain2 m hm]; rfl
          simp only [if_neg hlen, if_true]
          cases hge : gErr (childPath p n) with
          | some e =>
            rw [withFaults_Get_some zk cErr gErr _ e hge]
            simp [reachable, hge]
          | none =>
            rw [withFaults_Get_none zk cErr gErr _ hge, hget hk]
            simp only [List.filter, reachable, hall, hge, Option.isNone_none, Bool.and_self,
              List.map]
        | false =>
          have hlen : kids.names.length > 0 := by rw [names_length_pos, hk]
          simp only [if_pos hlen, Bool.false_eq_true, if_false]
          exact ihk (chain ++ [childPath p n]) (childPath p n) fuel1 hsk (by omega) hchain2
    simp only [Forest.names, forEach, chainsBelow, List.filter_append, List.map_append]
    rw [hnode, ihr chain p (fuel1 + 1) hsr hfr hchain]

/-- C7. Backup failures are localised. When the service holds a finite tree at `path` and
`Children` / `Get` fail on the paths given by `childrenErr` / `getErr`, `visitZK` returns
(for every recursion budget above the height of the tree) having invoked `fn` exactly on
the leaves of the failure-free walk that remain reachable, in the order of the
failure-free walk and once each: a leaf is dropped exactly when `Children` fails for a
node on its chain (so no leaf of the subtree of a failing node is reaped) or `Get` fails
for the leaf itself. -/
theorem backup_failures_localised (zk : ZkReader) (childrenErr getErr : Str → Option Err)
    (path : Str) (data : Bytes) (kids : Forest) (fuel : Nat)
    (hs : servesTree zk path data kids) (hf : kids.height < fuel) :
    visitZK (withFaults zk childrenErr getErr) fuel path
      = some (((leafChains path data kids).filter (reachable childrenErr getErr)).map
          (fun l => l.2)) ∧
    (leafChains path data kids).map (fun l => l.2) = leaves path data kids ∧
    List.Sublist (survivors childrenErr getErr path data kids) (leaves path data kids) := by
  have hleaves : (leafChains path data kids).map (fun l => l.2) = leaves path data kids := by
    unfold leafChains leaves
    cases kids.isNil
    · simp [chainsBelow_leaves]
    · simp
  refine ⟨?_, hleaves, ?_⟩
  · obtain ⟨hch, hget, hsk⟩ := hs
    obtain ⟨fuel1, rfl⟩ : ∃ m, fuel = m + 1 := ⟨fuel - 1, by omega⟩
    rw [visitZK_succ]
    cases hce : childrenErr path with
    | some e =>
      rw [withFaults_Children_some zk childrenErr getErr _ e hce]
      have hnil : (leafChains path data kids).filter (reachable childrenErr getErr) = [] := by
        unfold leafChains
        cases hk : kids.isNil with
        | true => simp [reachable, hce]
        | false =>
          simp only [Bool.false_eq_true, if_false]
          exact filter_chains_failed childrenErr getErr kids _ _ path (by simp) e hce
      rw [hnil]
      rfl
    | none =>
      rw [withFaults_Children_none zk childrenErr getErr _ hce, hch]
      unfold leafChains
      cases hk : kids.isNil with
      | true =>
        have hlen : ¬ (kids.names.length > 0) := by rw [names_length_pos, hk]; simp
        simp only [if_neg hlen, if_true]
        cases hge : getErr path with
        | some e =>
          rw [withFaults_Get_some zk childrenErr getErr _ e hge]
          simp [reachable, hge]
        | none =>
          rw [withFaults_Get_none zk childrenErr getErr _ hge, hget hk]
          simp [reachable, hce, hge]
      | false =>
        have hlen : kids.names.length > 0 := by rw [names_length_pos, hk]
        simp only [if_pos hlen, Bool.false_eq_true, if_false]
        exact forEach_visitZK_faults zk childrenErr getErr kids [path] path fuel1 hsk
          (by omega) (by simpa using hce)
  · unfold survivors
    rw [← hleaves]
    exact List.Sublist.map _ (List.filter_sublist _)

/-- C7, at the server holding `/x` = `hello` and `/y/z/w` = `world` when `Children("/y")`
fails: the leaf `/x` is still reaped, nothing below `/y` is. -/
theorem backup_failures_localised_witness :
    visitZK (withFaults serverXY (fun p => if p = "/y".toList then some (.zk 4) else none)
        (fun _ => none)) 4 "/".toList
      = some [("/x".toList, "hello".toList)] :=
  (backup_failures_localised serverXY (fun p => if p = "/y".toList then some (.zk 4) else none)
    (fun _ => none) "/".toList [] treeXY 4 (by decide) (by decide)).1

/-! ### Path strings -/

theorem splitOn_ne_nil (sep : Char) (s : Str) : splitOn sep s ≠ [] := by
  induction s with
  | nil => simp [splitOn]
  | cons c cs ih =>
    simp only [splitOn]
    split
    · simp
    · cases h : splitOn sep cs with
      | nil => exact absurd h ih
      | cons seg segs => simp

theorem splitOn_cons (sep c : Char) (cs : Str) :
    splitOn sep (c :: cs) =
      if c = sep then [] :: splitOn sep cs
      else
        match splitOn sep cs with
        | [] => [[c]]
        | seg :: segs => (c :: seg) :: segs := by
  rw [splitOn]

theorem splitOn_append_sep (sep : Char) (a b : Str) :
    splitOn sep (a ++ sep :: b) = splitOn sep a ++ splitOn sep b := by
  induction a with
  | nil => simp [splitOn]
  | cons c cs ih =>
    rw [List.cons_append, splitOn_cons, splitOn_cons, ih]
    split
    · rfl
    · cases h : splitOn sep cs with
      | nil => exact absurd h (splitOn_ne_nil sep cs)
      | cons seg segs => simp

theorem splitOn_of_not_mem (sep : Char) (s : Str) (h : sep ∉ s) : splitOn sep s = [s] := by
  induction s with
  | nil => rfl
  | cons c cs ih =>
    have hc : c ≠ sep := fun e => h (by simp [e])
    have hcs : sep ∉ cs := fun e => h (List.mem_cons_of_mem _ e)
    simp [splitOn, hc, ih hcs]

theorem pathSegments_append_sep (a b : Str) :
    pathSegments (a ++ '/' :: b) = pathSegments a ++ pathSegments b := by
  simp [pathSegments, splitOn_append_sep]

theorem pathSegments_name (n : Str) (h1 : n ≠ []) (h2 : '/' ∉ n) : pathSegments n = [n] := by
  simp [pathSegments, splitOn_of_not_mem '/' n h2, h1]

theorem pathSegments_nil : pathSegments [] = [] := by
  simp [pathSegments, splitOn]

theorem parentPath_child (P n : Str) (hP : P ≠ []) (hn : '/' ∉ n) :
    parentPath (P ++ '/' :: n) = P := by
  have hdw : (n.reverse ++ '/' :: P.reverse).dropWhile (fun c => c != '/')
      = '/' :: P.reverse := by
    have hall : ∀ c ∈ n.reverse, (c != '/') = true := by
      intro c hc
      have : c ≠ '/' := fun e => hn (by rw [← e]; exact List.mem_reverse.1 hc)
      simpa using this
    generalize n.reverse = r at hall
    induction r with
    | nil => simp [List.dropWhile]
    | cons x r ih =>
      have hx := hall x (List.mem_cons_self _ _)
      simp only [List.cons_append, List.dropWhile, hx]
      exact ih (fun c hc => hall c (List.mem_cons_of_mem _ hc))
  unfold parentPath
  simp only [List.reverse_append, List.reverse_cons, List.append_assoc, List.singleton_append]
  rw [hdw]
  simp [hP]

theorem parentPath_top (n : Str) (hn : '/' ∉ n) : parentPath ('/' :: n) = ['/'] := by
  have hdw : (n.reverse ++ ['/']).dropWhile (fun c => c != '/') = ['/'] := by
    have hall : ∀ c ∈ n.reverse, (c != '/') = true := by
      intro c hc
      have : c ≠ '/' := fun e => hn (by rw [← e]; exact List.mem_reverse.1 hc)
      simpa using this
    generalize n.reverse = r at hall
    induction r with
    | nil => simp [List.dropWhile]
    | cons x r ih =>
      have hx := hall x (List.mem_cons_self _ _)
      simp only [List.cons_append, List.dropWhile, hx]
      exact ih (fun c hc => hall c (List.mem_cons_of_mem _ hc))
  unfold parentPath
  simp only [List.reverse_cons]
  rw [hdw]
  simp

theorem parentPath_childPath (P n : Str) (hP : P ≠ []) (hn : '/' ∉ n) :
    parentPath (childPath P n) = P := by
  unfold childPath
  split
  · rename_i h; subst h; exact parentPath_top n hn
  · simpa using parentPath_child P n hP hn

/-! ### Mirror names -/

theorem escName_nil : escName [] = [] := rfl

theorem escName_colon (q : Str) : escName (':' :: q) = BURRY_ESC_COLON ++ escName q :=
  escape_colon q

theorem escName_other (c : Char) (q : Str) (hc : c ≠ ':') :
    escName (c :: q) = c :: escName q :=
  escape_other c q hc

theorem escName_append (a b : Str) : escName (a ++ b) = escName a ++ escName b := by
  induction a with
  | nil => rfl
  | cons c a ih =>
    by_cases hc : c = ':'
    · subst hc
      rw [List.cons_append, escName_colon, escName_colon, ih, List.append_assoc]
    · rw [List.cons_append, escName_other c _ hc, escName_other c _ hc, ih]
      rfl

theorem escName_ne_nil (n : Str) (h : n ≠ []) : escName n ≠ [] := by
  cases n with
  | nil => exact absurd rfl h
  | cons c q =>
    by_cases hc : c = ':'
    · subst hc; rw [escName_colon, token_eq]; simp
    · rw [escName_other c q hc]; simp

theorem token_no_slash : '/' ∉ BURRY_ESC_COLON := by decide

theorem escName_no_slash (n : Str) (h : '/' ∉ n) : '/' ∉ escName n := by
  induction n with
  | nil => simp [escName_nil]
  | cons c q ih =>
    have hq : '/' ∉ q := fun e => h (List.mem_cons_of_mem _ e)
    have hc0 : '/' ≠ c := fun e => h (by rw [e]; exact List.mem_cons_self _ _)
    by_cases hc : c = ':'
    · subst hc
      rw [escName_colon, List.mem_append]
      exact fun e => e.elim token_no_slash (ih hq)
    · rw [escName_other c q hc, List.mem_cons]
      exact fun e => e.elim hc0 (ih hq)

theorem escName_eq_dot (n : Str) (h : escName n = ['.']) : n = ['.'] := by
  cases n with
  | nil => simp [escName_nil] at h
  | cons c q =>
    by_cases hc : c = ':'
    · subst hc
      rw [escName_colon, token_eq] at h
      simp at h
    · rw [escName_other c q hc] at h
      simp only [List.cons.injEq] at h
      obtain ⟨h1, h2⟩ := h
      have : q = [] := by
        by_contra hq
        exact escName_ne_nil q hq h2
      rw [h1, this]

theorem validName_escName (n : Str) (h : validName n) : validName (escName n) :=
  ⟨escName_ne_nil n h.1, escName_no_slash n h.2.1, fun e => h.2.2 (escName_eq_dot n e)⟩

theorem ToMirrorPath_abs (q : Str) : ToMirrorPath ('/' :: q) = escName q := rfl

theorem ToMirrorPath_root : ToMirrorPath ['/'] = [] := rfl

theorem ToMirrorPath_top (n : Str) : ToMirrorPath (childPath ['/'] n) = escName n := by
  simp [childPath, ToMirrorPath_abs]

theorem ToMirrorPath_child (P n : Str) (hP : P.head? = some '/') (hroot : P ≠ ['/']) :
    ToMirrorPath (childPath P n) = ToMirrorPath P ++ '/' :: escName n := by
  cases P with
  | nil => simp at hP
  | cons c q =>
    simp only [List.head?_cons, Option.some.injEq] at hP
    subst hP
    simp only [childPath, hroot, if_false, List.cons_append, ToMirrorPath_abs,
      List.append_assoc, List.singleton_append]
    rw [escName_append, List.nil_append, escName_other '/' n (by decide)]

/-- Decoding the mirror path of an absolute tree path without the token gives the tree
path back. -/
theorem znodeOf_ToMirrorPath (p : Str) (habs : p.head? = some '/')
    (hfree : ¬ BURRY_ESC_COLON <:+: p) : znodeOf (ToMirrorPath p) = p := by
  cases p with
  | nil => simp at habs
  | cons c q =>
    simp only [List.head?_cons, Option.some.injEq] at habs
    subst habs
    have hq : ¬ BURRY_ESC_COLON <:+: q := fun hi => hfree (List.IsInfix.trans hi
      (List.infix_cons (List.infix_refl _)))
    simp only [ToMirrorPath, znodeOf]
    rw [unescape_escape q hq]

theorem childPath_head (P n : Str) (hP : P.head? = some '/') :
    (childPath P n).head? = some '/' := by
  unfold childPath
  split
  · rfl
  · cases P with
    | nil => simp at hP
    | cons c q => simpa using hP

theorem childPath_ne_root (P n : Str) (hP : P.head? = some '/') (hn : n ≠ []) :
    childPath P n ≠ ['/'] := by
  unfold childPath
  split
  · simpa using hn
  · cases P with
    | nil => simp at hP
    | cons c q => simp

/-! ### Directory operations -/

theorem hasName_updateDir (n m : Str) (g : FsForest → FsForest) (K : FsForest) :
    (updateDir n g K).hasName m = K.hasName m := by
  induction K with
  | nil => rfl
  | file x c rest ih =>
    simp only [updateDir]
    split <;> simp [FsForest.hasName, ih]
  | dir x kids rest _ ih =>
    simp only [updateDir]
    split <;> simp [FsForest.hasName, ih]

theorem hasName_insertDir (n m : Str) (x K : FsForest) :
    (insertDir n x K).hasName m = (decide (n = m) || K.hasName m) := by
  induction K with
  | nil => simp [insertDir, FsForest.hasName]
  | file y c rest ih =>
    simp only [insertDir]
    split
    · simp [FsForest.hasName]
    · simp only [FsForest.hasName, ih]
      cases decide (n = m) <;> cases decide (y = m) <;> simp
  | dir y kids rest _ ih =>
    simp only [insertDir]
    split
    · simp [FsForest.hasName]
    · simp only [FsForest.hasName, ih]
      cases decide (n = m) <;> cases decide (y = m) <;> simp

theorem updateDir_insertDir (n : Str) (g : FsForest → FsForest) (x K : FsForest)
    (h : K.hasName n = false) : updateDir n g (insertDir n x K) = insertDir n (g x) K := by
  induction K with
  | nil => simp [insertDir, updateDir]
  | file y c rest ih =>
    simp only [FsForest.hasName, Bool.or_eq_false_iff, decide_eq_false_iff_not] at h
    simp only [insertDir]
    split
    · simp [updateDir]
    · simp [updateDir, h.1, ih h.2]
  | dir y kids rest _ ih =>
    simp only [FsForest.hasName, Bool.or_eq_false_iff, decide_eq_false_iff_not] at h
    simp only [insertDir]
    split
    · simp [updateDir]
    · simp [updateDir, h.1, ih h.2]

theorem updateDir_comp (n : Str) (g1 g2 : FsForest → FsForest) (K : FsForest) :
    updateDir n g2 (updateDir n g1 K) = updateDir n (g2 ∘ g1) K := by
  induction K with
  | nil => rfl
  | file y c rest ih =>
    simp only [updateDir]
    split
    · rename_i h; simp [updateDir, h]
    · rename_i h; simp [updateDir, h, ih]
  | dir y kids rest _ ih =>
    simp only [updateDir]
    split
    · rename_i h; simp [updateDir, h]
    · rename_i h; simp [updateDir, h, ih]

theorem mkdirIn_comp (n : Str) (g1 g2 : FsForest → FsForest) (K : FsForest) :
    mkdirIn n g2 (mkdirIn n g1 K) = mkdirIn n (g2 ∘ g1) K := by
  unfold mkdirIn
  cases h : K.hasName n with
  | true =>
    simp only [if_true, hasName_updateDir, h]
    exact updateDir_comp n g1 g2 K
  | false =>
    simp only [Bool.false_eq_true, if_false, hasName_insertDir, decide_True, Bool.true_or,
      if_true]
    exact updateDir_insertDir n g2 (g1 .nil) K h

theorem enter_comp (segs : List Str) (g1 g2 : FsForest → FsForest) (K : FsForest) :
    enter segs g2 (enter segs g1 K) = enter segs (g2 ∘ g1) K := by
  induction segs generalizing g1 g2 K with
  | nil => rfl
  | cons n segs ih =>
    simp only [enter]
    rw [mkdirIn_comp]
    congr 1
    funext K2
    exact ih g1 g2 K2

theorem enter_append (a b : List Str) (g : FsForest → FsForest) :
    enter (a ++ b) g = enter a (enter b g) := by
  induction a with
  | nil => rfl
  | cons n a ih =>
    show mkdirIn n (enter (a ++ b) g) = mkdirIn n (enter a (enter b g))
    rw [ih]

/-! ### The mirror written by the backup -/

theorem pathSegments_childPath (P n : Str) (hP : P.head? = some '/') (hn : validName n) :
    pathSegments (ToMirrorPath (childPath P n))
      = pathSegments (ToMirrorPath P) ++ [escName n] := by
  have hv := validName_escName n hn
  by_cases hroot : P = ['/']
  · subst hroot
    rw [ToMirrorPath_top, ToMirrorPath_root, pathSegments_nil,
      pathSegments_name _ hv.1 hv.2.1]
    rfl
  · rw [ToMirrorPath_child P n hP hroot, pathSegments_append_sep,
      pathSegments_name _ hv.1 hv.2.1]

/-- Reaping the leaves below a node, one after the other, does to the snapshot directory
what `reapBelow` does to the listing of the mirror directory of the node. -/
theorem foldl_reap_below (k : Consts) (F : Forest) :
    ∀ (P : Str) (M : FsForest), P.head? = some '/' → F.isNil = false →
      (∀ x ∈ nodeList P F, validName x.name) →
      (leavesBelow P F).foldl (fun M inv => reapsimple k M inv.1 inv.2) M
        = enter (pathSegments (ToMirrorPath P)) (reapBelow k F) M := by
  induction F with
  | nil => intro P M _ h; simp [Forest.isNil] at h
  | cons n d kids rest ihk ihr =>
    intro P M hP _ hvalid
    have hn : validName n := hvalid ⟨childPath P n, n, d, kids.isNil⟩ (by simp [nodeList])
    have hvk : ∀ x ∈ nodeList (childPath P n) kids, validName x.name :=
      fun x hx => hvalid x (by simp [nodeList, hx])
    have hvr : ∀ x ∈ nodeList P rest, validName x.name :=
      fun x hx => hvalid x (by simp [nodeList, hx])
    have hseg := pathSegments_childPath P n hP hn
    have hfirst : (if kids.isNil then [(childPath P n, d)]
          else leavesBelow (childPath P n) kids).foldl
            (fun M inv => reapsimple k M inv.1 inv.2) M
        = enter (pathSegments (ToMirrorPath P))
            (mkdirIn (escName n)
              (if kids.isNil then writeFile k.CONTENT_FILE d else reapBelow k kids)) M := by
      cases hk : kids.isNil with
      | true =>
        simp only [if_true, List.foldl, reapsimple, writeContent, hseg]
        rw [enter_append]
        rfl
      | false =>
        simp only [Bool.false_eq_true, if_false]
        rw [ihk (childPath P n) M (childPath_head P n hP) hk hvk, hseg, enter_append]
        rfl
    simp only [leavesBelow, List.foldl_append]
    rw [hfirst]
    cases hr : rest.isNil with
    | true =>
      cases rest with
      | nil => simp [leavesBelow, reapBelow]
      | cons _ _ _ _ => simp [Forest.isNil] at hr
    | false =>
      rw [ihr P _ hP hr hvr, enter_comp]
      rfl

theorem hasName_image (k : Consts) (F : Forest) (m : Str) :
    (image k F).hasName m = decide (m ∈ F.names.map escName) := by
  induction F with
  | nil => simp [image, FsForest.hasName, Forest.names]
  | cons n d kids rest _ ihr =>
    simp only [image, FsForest.hasName, ihr, Forest.names, List.map_cons, List.mem_cons]
    by_cases h1 : escName n = m
    · simp [h1]
    · have h2 : ¬ m = escName n := fun e => h1 e.symm
      simp [h1, h2]

theorem image_insertChild (k : Consts) (n : Str) (d : Bytes) (ks acc : Forest) :
    image k (insertChild n d ks acc)
      = insertDir (escName n)
          (if ks.isNil then .file k.CONTENT_FILE d .nil else image k ks) (image k acc) := by
  induction acc with
  | nil => simp [insertChild, image, insertDir]
  | cons m e ms rest _ ihr =>
    simp only [insertChild, image, insertDir]
    split
    · simp [image]
    · simp [image, ihr]

theorem names_insertChild (n : Str) (d : Bytes) (ks acc : Forest) (m : Str) :
    m ∈ (insertChild n d ks acc).names ↔ m = n ∨ m ∈ acc.names := by
  induction acc with
  | nil => simp [insertChild, Forest.names]
  | cons x e xs rest _ ihr =>
    simp only [insertChild]
    split
    · simp [Forest.names]
    · simp only [Forest.names, List.mem_cons, ihr]
      tauto

theorem isNil_insertChild (n : Str) (d : Bytes) (ks acc : Forest) :
    (insertChild n d ks acc).isNil = false := by
  cases acc with
  | nil => rfl
  | cons m e ms rest =>
    simp only [insertChild]
    split <;> rfl

theorem isNil_lexInto (F : Forest) :
    ∀ acc : Forest, (lexInto F acc).isNil = (F.isNil && acc.isNil) := by
  induction F with
  | nil => intro acc; simp [lexInto, Forest.isNil]
  | cons n d kids rest _ ihr =>
    intro acc
    rw [lexInto, ihr, isNil_insertChild]
    simp [Forest.isNil]

theorem isNil_lexInto_nil (F : Forest) : (lexInto F .nil).isNil = F.isNil := by
  rw [isNil_lexInto]; simp [Forest.isNil]

/-- Reaping the leaves below a node fills the listing of its mirror directory with the
mirror of its children, in lexical order. -/
theorem reapBelow_image (k : Consts) (F : Forest) :
    ∀ acc : Forest, mirrorDistinct F →
      (∀ x ∈ F.names, escName x ∉ acc.names.map escName) →
      reapBelow k F (image k acc) = image k (lexInto F acc) := by
  induction F with
  | nil => intro acc _ _; rfl
  | cons n d kids rest ihk ihr =>
    intro acc hdist hfresh
    obtain ⟨hn, hdk, hdr⟩ := hdist
    have hfn : (image k acc).hasName (escName n) = false := by
      rw [hasName_image]
      simpa using hfresh n (by simp [Forest.names])
    have hkids : (if kids.isNil then writeFile k.CONTENT_FILE d else reapBelow k kids) .nil
        = (if (lexInto kids .nil).isNil then FsForest.file k.CONTENT_FILE d .nil
            else image k (lexInto kids .nil)) := by
      rw [isNil_lexInto_nil]
      cases hk : kids.isNil with
      | true => simp [writeFile, FsForest.hasName, insertFile]
      | false =>
        simp only [Bool.false_eq_true, if_false]
        have := ihk .nil hdk (by simp [Forest.names])
        simpa [image] using this
    have hfresh2 : ∀ x ∈ rest.names,
        escName x ∉ (insertChild n d (lexInto kids .nil) acc).names.map escName := by
      intro x hx hmem
      rw [List.mem_map] at hmem
      obtain ⟨y, hy, hxy⟩ := hmem
      rw [names_insertChild] at hy
      rcases hy with hy | hy
      · subst hy
        exact hn (by rw [hxy]; exact List.mem_map_of_mem _ hx)
      · exact hfresh x (by simp [Forest.names, hx])
          (by rw [← hxy]; exact List.mem_map_of_mem _ hy)
    simp only [reapBelow, lexInto]
    rw [← ihr _ hdr hfresh2, image_insertChild]
    unfold mkdirIn
    rw [hfn, hkids]
    rfl

/-- Ordering the children lexically keeps the znodes of the tree. -/
theorem nodeList_insertChild (n : Str) (d : Bytes) (ks acc : Forest) (P : Str) :
    List.Perm (nodeList P (insertChild n d ks acc))
      (⟨childPath P n, n, d, ks.isNil⟩ :: (nodeList (childPath P n) ks ++ nodeList P acc)) := by
  induction acc with
  | nil => simp [insertChild, nodeList]
  | cons m e ms rest _ ihr =>
    simp only [insertChild]
    split
    · simp [nodeList]
    · simp only [nodeList]
      refine (List.Perm.cons _ (List.Perm.append_left _ ihr)).trans ?_
      refine (List.Perm.cons _ List.perm_middle).trans ?_
      refine (List.Perm.swap _ _ _).trans ?_
      refine List.Perm.cons _ ?_
      rw [← List.cons_append, ← List.cons_append, ← List.append_assoc]
      refine (List.perm_append_comm.append_right _).trans ?_
      simp

theorem nodeList_lexInto (F : Forest) :
    ∀ (acc : Forest) (P : Str),
      List.Perm (nodeList P (lexInto F acc)) (nodeList P acc ++ nodeList P F) := by
  induction F with
  | nil => intro acc P; simp [lexInto, nodeList]
  | cons n d kids rest ihk ihr =>
    intro acc P
    simp only [lexInto, nodeList]
    refine (ihr _ P).trans ?_
    refine ((nodeList_insertChild n d (lexInto kids .nil) acc P).append_right _).trans ?_
    rw [isNil_lexInto_nil]
    have hk : List.Perm (nodeList (childPath P n) (lexInto kids .nil))
        (nodeList (childPath P n) kids) := by
      simpa [nodeList] using ihk .nil (childPath P n)
    refine List.Perm.trans ?_ List.perm_middle.symm
    simp only [List.cons_append]
    refine List.Perm.cons _ ?_
    refine ((hk.append_right _).append_right _).trans ?_
    refine (List.perm_append_comm.append_right _).trans ?_
    rw [List.append_assoc]

/-! ### The file system calls on the mirror -/

theorem relInv_child (dp : Str) (segs : List Str) (n : Str) (h : relInv dp segs)
    (hn : validName n) :
    filepath_Join dp n ≠ ['.'] ∧ pathSegments (filepath_Join dp n) = segs ++ [n] := by
  rcases h with ⟨h1, h2⟩ | ⟨h1, h2, _⟩
  · subst h1 h2
    simp only [filepath_Join, if_true, List.nil_append]
    exact ⟨hn.2.2, pathSegments_name n hn.1 hn.2.1⟩
  · simp only [filepath_Join, h1, if_false]
    refine ⟨?_, ?_⟩
    · intro e
      have : '/' ∈ dp ++ '/' :: n := by simp
      rw [e] at this
      simp at this
    · rw [pathSegments_append_sep, h2, pathSegments_name n hn.1 hn.2.1]

theorem relInv_child_inv (dp : Str) (segs : List Str) (n : Str) (h : relInv dp segs)
    (hn : validName n) : relInv (filepath_Join dp n) (segs ++ [n]) :=
  Or.inr ⟨(relInv_child dp segs n h hn).1, (relInv_child dp segs n h hn).2, by simp⟩

theorem resolve_single (m : Str) (R : FsForest) : resolve [m] R = R.find m := rfl

theorem resolve_cons_cons (n m : Str) (segs : List Str) (R : FsForest) :
    resolve (n :: m :: segs) R =
      match R.find n with
      | some (.isDir kids) => resolve (m :: segs) kids
      | _ => none := by
  rw [resolve]

theorem resolve_snoc (xs : List Str) (m : Str) (hx : xs ≠ []) :
    ∀ R : FsForest, resolve (xs ++ [m]) R =
      match resolve xs R with
      | some (.isDir K) => K.find m
      | _ => none := by
  induction xs with
  | nil => exact absurd rfl hx
  | cons x ys ih =>
    intro R
    cases ys with
    | nil =>
      rw [List.singleton_append, resolve_cons_cons, resolve_single]
      cases R.find x with
      | none => rfl
      | some item => cases item <;> rfl
    | cons y zs =>
      rw [List.cons_append, List.cons_append, resolve_cons_cons, resolve_cons_cons]
      cases R.find x with
      | none => rfl
      | some item =>
        cases item with
        | isFile c => rfl
        | isDir K => exact ih (by simp) K

theorem find_of_hasName_false (M : FsForest) (n : Str) (h : M.hasName n = false) :
    M.find n = none := by
  induction M with
  | nil => rfl
  | file m c rest ih =>
    simp only [FsForest.hasName, Bool.or_eq_false_iff, decide_eq_false_iff_not] at h
    simp [FsForest.find, h.1, ih h.2]
  | dir m kids rest _ ih =>
    simp only [FsForest.hasName, Bool.or_eq_false_iff, decide_eq_false_iff_not] at h
    simp [FsForest.find, h.1, ih h.2]

/-- The file system of a well-formed snapshot directory answers the content file calls
of each of its directories from the listing of that directory. -/
theorem fsOf_agrees (k : Consts) (R : FsForest) (hc : validName k.CONTENT_FILE)
    (M : FsForest) :
    ∀ (segs : List Str) (dp : Str), relInv dp segs → FsWF M →
      (∀ m, M.hasName m = true → resolve (segs ++ [m]) R = M.find m) →
      FsAgrees k (fsOf R) dp M := by
  induction M with
  | nil => intro _ _ _ _ _; trivial
  | file n c rest ih =>
    intro segs dp hrel hwf hres
    obtain ⟨_, hfresh, hwr⟩ := hwf
    refine ih segs dp hrel hwr ?_
    intro m hm
    have hne : n ≠ m := by
      intro e; subst e; rw [hfresh] at hm; simp at hm
    rw [hres m (by simp [FsForest.hasName, hm])]
    simp [FsForest.find, hne]
  | dir n kids rest ihk ihr =>
    intro segs dp hrel hwf hres
    obtain ⟨hn, hfresh, hwk, hwr⟩ := hwf
    have hrel2 := relInv_child_inv dp segs n hrel hn
    have hseg := (relInv_child (filepath_Join dp n) (segs ++ [n]) k.CONTENT_FILE hrel2 hc).2
    have hdir : resolve (segs ++ [n]) R = some (.isDir kids) := by
      rw [hres n (by simp [FsForest.hasName])]
      simp [FsForest.find]
    have hkid : ∀ m, resolve ((segs ++ [n]) ++ [m]) R = kids.find m := by
      intro m
      rw [resolve_snoc (segs ++ [n]) m (by simp) R, hdir]
    refine ⟨?_, ?_, ?_, ?_⟩
    · simp only [fsOf, hseg, hkid, contentStat]
    · simp only [fsOf, hseg, hkid, contentRead]
    · exact ihk (segs ++ [n]) _ hrel2 hwk (fun m _ => hkid m)
    · refine ihr segs dp hrel hwr ?_
      intro m hm
      have hne : n ≠ m := by
        intro e; subst e; rw [hfresh] at hm; simp at hm
      rw [hres m (by simp [FsForest.hasName, hm])]
      simp [FsForest.find, hne]

theorem fsOf_agrees_root (k : Consts) (R : FsForest) (hc : validName k.CONTENT_FILE)
    (hwf : FsWF R) : FsAgrees k (fsOf R) ['.'] R :=
  fsOf_agrees k R hc R [] ['.'] (Or.inl ⟨rfl, rfl⟩) hwf (fun _ _ => rfl)

theorem FsWF_image (k : Consts) (hc : validName k.CONTENT_FILE) (F : Forest) :
    ∀ P : Str, (∀ x ∈ nodeList P F, nodeOK k x) → mirrorDistinct F → FsWF (image k F) := by
  induction F with
  | nil => intro _ _ _; trivial
  | cons n d kids rest ihk ihr =>
    intro P hok hdist
    obtain ⟨hn, hdk, hdr⟩ := hdist
    have h0 := hok ⟨childPath P n, n, d, kids.isNil⟩ (by simp [nodeList])
    refine ⟨validName_escName n h0.1, ?_, ?_, ?_⟩
    · rw [hasName_image]; simpa using hn
    · cases hk : kids.isNil with
      | true => simp only [if_true]; exact ⟨hc, rfl, trivial⟩
      | false =>
        simp only [Bool.false_eq_true, if_false]
        exact ihk (childPath P n) (fun x hx => hok x (by simp [nodeList, hx])) hdk
    · exact ihr P (fun x hx => hok x (by simp [nodeList, hx])) hdr

/-! ### The restore walk over the mirror of a tree -/

theorem names_mem_nodeList (F : Forest) (P m : Str) (h : m ∈ F.names) :
    childPath P m ∈ (nodeList P F).map ZNode.path := by
  induction F with
  | nil => simp [Forest.names] at h
  | cons n d kids rest _ ihr =>
    simp only [Forest.names, List.mem_cons] at h
    simp only [nodeList, List.map_cons, List.map_append, List.mem_cons, List.mem_append]
    rcases h with h | h
    · exact Or.inl (by rw [h])
    · exact Or.inr (Or.inr (ihr h))

theorem ToMirrorPath_childPath_congr (P n m : Str) (hP : P.head? = some '/')
    (h : escName m = escName n) :
    ToMirrorPath (childPath P m) = ToMirrorPath (childPath P n) := by
  by_cases hroot : P = ['/']
  · subst hroot
    rw [ToMirrorPath_top, ToMirrorPath_top, h]
  · rw [ToMirrorPath_child P m hP hroot, ToMirrorPath_child P n hP hroot, h]

theorem nodeList_path_head (F : Forest) :
    ∀ P : Str, P.head? = some '/' → ∀ x ∈ nodeList P F, x.path.head? = some '/' := by
  induction F with
  | nil => intro P _ x hx; simp [nodeList] at hx
  | cons n d kids rest ihk ihr =>
    intro P hP x hx
    simp only [nodeList, List.mem_cons, List.mem_append] at hx
    rcases hx with hx | hx | hx
    · rw [hx]; exact childPath_head P n hP
    · exact ihk (childPath P n) (childPath_head P n hP) x hx
    · exact ihr P hP x hx

/-- In a tree whose znodes have different paths without the token, siblings have different
mirror names. -/
theorem mirrorDistinct_of_nodup (k : Consts) (F : Forest) :
    ∀ P : Str, P.head? = some '/' → (∀ x ∈ nodeList P F, nodeOK k x) →
      ((nodeList P F).map ZNode.path).Nodup → mirrorDistinct F := by
  induction F with
  | nil => intro _ _ _ _; trivial
  | cons n d kids rest ihk ihr =>
    intro P hP hok hnd
    have h0 := hok ⟨childPath P n, n, d, kids.isNil⟩ (by simp [nodeList])
    simp only [nodeList, List.map_cons, List.map_append, List.nodup_cons, List.mem_append,
      not_or] at hnd
    obtain ⟨⟨_, hnr⟩, hnd2⟩ := hnd
    rw [List.nodup_append] at hnd2
    refine ⟨?_, ?_, ?_⟩
    · intro hmem
      rw [List.mem_map] at hmem
      obtain ⟨m, hm, hmn⟩ := hmem
      have hpm := names_mem_nodeList rest P m hm
      obtain ⟨y, hy, hyp⟩ := List.mem_map.1 hpm
      have hymok := hok y (by simp [nodeList, hy])
      have hfree_m : ¬ BURRY_ESC_COLON <:+: childPath P m := by rw [← hyp]; exact hymok.2.1
      have heq : childPath P m = childPath P n := by
        rw [← znodeOf_ToMirrorPath (childPath P m) (childPath_head P m hP) hfree_m,
          ← znodeOf_ToMirrorPath (childPath P n) (childPath_head P n hP) h0.2.1,
          ToMirrorPath_childPath_congr P n m hP hmn]
      exact hnr (by rw [← heq]; exact hpm)
    · exact ihk (childPath P n) (childPath_head P n hP)
        (fun x hx => hok x (by simp [nodeList, hx])) hnd2.1
    · exact ihr P hP (fun x hx => hok x (by simp [nodeList, hx])) hnd2.2.1

theorem lookupNode_eq_none_iff (p : Str) (l : List (Str × Bytes)) :
    lookupNode p l = none ↔ p ∉ l.map Prod.fst := by
  induction l with
  | nil => simp [lookupNode]
  | cons x l ih =>
    obtain ⟨q, d⟩ := x
    simp only [lookupNode, List.map_cons, List.mem_cons, not_or]
    split
    · rename_i h; simp [h]
    · rename_i h
      rw [ih]
      exact ⟨fun h2 => ⟨fun e => h e.symm, h2⟩, fun h2 => h2.2⟩

theorem lookupNode_append_single (p : Str) (d : Bytes) (l : List (Str × Bytes))
    (h : lookupNode p l = none) : lookupNode p (l ++ [(p, d)]) = some d := by
  rw [lookupNode_append_none p l _ h]
  simp [lookupNode]

/-- An entry that is not a directory changes no znode and returns no error when `Exists`
does not fail. -/
theorem vzr_notDir_ok (k : Consts) (fs : FileSys) (path : Str) (f : FileInfo)
    (werr : Option Err) (zk : ZkConn) (hd : f.IsDir = false)
    (he : zk.existsErr (znodeOf path) = none) :
    ∃ zk1, visitZKReverse k fs path f werr zk = (none, zk1) ∧ zk1.nodes = zk.nodes ∧
      zk1.existsErr = zk.existsErr ∧ zk1.createErr = zk.createErr := by
  by_cases hn : reservedName k f
  · exact ⟨zk, vzr_reserved k fs path f werr zk hn, rfl, rfl, rfl⟩
  · cases hp : (lookupNode (znodeOf path) zk.nodes).isSome with
    | true => exact ⟨_, vzr_present k fs path f werr zk hn he hp, rfl, rfl, rfl⟩
    | false => exact ⟨_, vzr_notDir k fs path f werr zk hn he hp hd, rfl, rfl, rfl⟩

/-- A non-reserved directory entry whose decoded path is absent and has its parent, on a
connection without failures: the znode is created, with the content of the content file
when there is one, with the empty payload when there is none. -/
theorem vzr_dir_creates (k : Consts) (fs : FileSys) (path : Str) (f : FileInfo)
    (werr : Option Err) (zk : ZkConn) (kids : FsForest) (payload : Bytes)
    (hn : ¬ reservedName k f) (hd : f.IsDir = true)
    (he : ∀ p, zk.existsErr p = none) (hce : ∀ p, zk.createErr p = none)
    (habs : lookupNode (znodeOf path) zk.nodes = none)
    (hpar : (lookupNode (parentPath (znodeOf path)) zk.nodes).isSome = true)
    (hstat : fs.Stat (filepath_Join path k.CONTENT_FILE) = contentStat k kids)
    (hread : fs.ReadFile (filepath_Join path k.CONTENT_FILE) = contentRead k kids)
    (hkids : kids.find k.CONTENT_FILE = some (.isFile payload) ∨
      (kids.find k.CONTENT_FILE = none ∧ payload = [])) :
    ∃ zk1, visitZKReverse k fs path f werr zk = (none, zk1) ∧
      zk1.nodes = zk.nodes ++ [(znodeOf path, payload)] ∧
      zk1.existsErr = zk.existsErr ∧ zk1.createErr = zk.createErr := by
  have hp : (lookupNode (znodeOf path) zk.nodes).isSome = false := by rw [habs]; rfl
  have hcreate : ∀ c, (afterExists zk (znodeOf path) false none).Create (znodeOf path) c
      = ((znodeOf path, none),
          { afterExists zk (znodeOf path) false none with
            nodes := zk.nodes ++ [(znodeOf path, c)]
            calls := (afterExists zk (znodeOf path) false none).calls
              ++ [.Create (znodeOf path) c none] }) := by
    intro c
    have herr : (afterExists zk (znodeOf path) false none).createError (znodeOf path) = none := by
      have hpar2 : (lookupNode (parentPath (znodeOf path)) zk.nodes).isNone = false := by
        cases hl : lookupNode (parentPath (znodeOf path)) zk.nodes with
        | none => rw [hl] at hpar; simp at hpar
        | some v => rfl
      simp [ZkConn.createError, afterExists, hce, hp, hpar2]
    simp only [ZkConn.Create, herr]
    rfl
  rcases hkids with hk | ⟨hk, hpl⟩
  · have hs : fs.Stat (filepath_Join path k.CONTENT_FILE) = none := by
      rw [hstat]; simp [contentStat, hk]
    have hr : fs.ReadFile (filepath_Join path k.CONTENT_FILE) = (payload, none) := by
      rw [hread]; simp [contentRead, hk]
    refine ⟨_, vzr_leaf k fs path f werr zk payload hn (he _) hp hd hs hr, ?_, ?_, ?_⟩
    · rw [hcreate]
    · rw [hcreate]; rfl
    · rw [hcreate]; rfl
  · subst hpl
    have hs : fs.Stat (filepath_Join path k.CONTENT_FILE) ≠ none := by
      rw [hstat]; simp [contentStat, hk]
    refine ⟨_, vzr_branch k fs path f werr zk hn (he _) hp hd hs, ?_, ?_, ?_⟩
    · rw [hcreate]
    · rw [hcreate]; rfl
    · rw [hcreate]; rfl

theorem find_image_none (k : Consts) (F : Forest) (c : Str)
    (h : ∀ m ∈ F.names, escName m ≠ c) : (image k F).find c = none := by
  apply find_of_hasName_false
  rw [hasName_image]
  simp only [decide_eq_false_iff_not, List.mem_map, not_exists, not_and]
  exact fun m hm => h m hm

theorem names_mem_nodeList_name (F : Forest) (P m : Str) (h : m ∈ F.names) :
    ∃ x ∈ nodeList P F, x.name = m ∧ x.path = childPath P m := by
  induction F with
  | nil => simp [Forest.names] at h
  | cons n d kids rest _ ihr =>
    simp only [Forest.names, List.mem_cons] at h
    rcases h with h | h
    · exact ⟨⟨childPath P n, n, d, kids.isNil⟩, by simp [nodeList], h.symm, by rw [h]⟩
    · obtain ⟨x, hx, hxm⟩ := ihr h
      exact ⟨x, by simp [nodeList, hx], hxm⟩

theorem map_fst_restored (l : List ZNode) :
    (l.map restored).map Prod.fst = l.map ZNode.path := by
  induction l with
  | nil => rfl
  | cons x l ih => simp [restored, ih]

theorem Walk_cons_ok (fn : Str → FileInfo → Option Err → ZkConn → Option Err × ZkConn)
    (path : Str) (f : FileInfo) (rest : List (Str × FileInfo)) (zk zk1 : ZkConn)
    (h : fn path f none zk = (none, zk1)) :
    Walk fn ((path, f) :: rest) zk = Walk fn rest zk1 := by
  simp [Walk, h]

theorem Walk_append_ok (fn : Str → FileInfo → Option Err → ZkConn → Option Err × ZkConn)
    (pre rest : List (Str × FileInfo)) (zk zk1 : ZkConn)
    (h : Walk fn pre zk = (none, zk1)) :
    Walk fn (pre ++ rest) zk = Walk fn rest zk1 := by
  rw [Walk_append, h]

/-- The restore walk over the mirror of the children `F` of the znode at `P`, which is
present while none of the znodes below it is, on a connection without failures: the walk
ends without error and has created every znode below `P`, parents first, leaves with
their payload and branches with the empty payload. -/
theorem walk_image (k : Consts) (fs : FileSys) (F : Forest) :
    ∀ (P dp : Str) (zk : ZkConn), P.head? = some '/' → dirOf P dp →
      (∀ x ∈ nodeList P F, nodeOK k x) →
      ((nodeList P F).map ZNode.path).Nodup →
      FsAgrees k fs dp (image k F) →
      (∀ p, zk.existsErr p = none) → (∀ p, zk.createErr p = none) →
      (lookupNode P zk.nodes).isSome = true →
      (∀ x ∈ nodeList P F, lookupNode x.path zk.nodes = none) →
      ∃ zk1, Walk (visitZKReverse k fs) (listing dp (image k F)) zk = (none, zk1) ∧
        zk1.nodes = zk.nodes ++ (nodeList P F).map restored ∧
        zk1.existsErr = zk.existsErr ∧ zk1.createErr = zk.createErr := by
  induction F with
  | nil =>
    intro P dp zk _ _ _ _ _ _ _ _ _
    exact ⟨zk, rfl, by simp [nodeList], rfl, rfl⟩
  | cons n d kids rest ihk ihr =>
    intro P dp zk hP hdir hok hnd hag he hce hpar habs
    have hPne : P ≠ [] := by intro e; rw [e] at hP; simp at hP
    obtain ⟨hvalid, hfree, hmeta, hsnap, _, _⟩ :=
      hok ⟨childPath P n, n, d, kids.isNil⟩ (by simp [nodeList])
    simp only at hvalid hfree hmeta hsnap
    have hQabs := childPath_head P n hP
    have hdq : filepath_Join dp (escName n) = ToMirrorPath (childPath P n) ∧
        filepath_Join dp (escName n) ≠ ['.'] := by
      rcases hdir with ⟨h1, h2⟩ | ⟨h1, h2, h3⟩
      · subst h1 h2
        simp only [filepath_Join, if_true]
        exact ⟨(ToMirrorPath_top n).symm, (validName_escName n hvalid).2.2⟩
      · simp only [filepath_Join, h3, if_false]
        refine ⟨by rw [h2]; exact (ToMirrorPath_child P n hP h1).symm, ?_⟩
        intro e
        have : '/' ∈ dp ++ '/' :: escName n := by simp
        rw [e] at this
        simp at this
    have hz : znodeOf (filepath_Join dp (escName n)) = childPath P n := by
      rw [hdq.1]; exact znodeOf_ToMirrorPath _ hQabs hfree
    have hdirQ : dirOf (childPath P n) (filepath_Join dp (escName n)) :=
      Or.inr ⟨childPath_ne_root P n hP hvalid.1, hdq.1, hdq.2⟩
    simp only [nodeList, List.map_cons, List.map_append, List.nodup_cons, List.mem_append,
      not_or] at hnd
    obtain ⟨⟨hQk, hQr⟩, hnd2⟩ := hnd
    rw [List.nodup_append] at hnd2
    obtain ⟨hndk, hndr, hdisj⟩ := hnd2
    simp only [image, FsAgrees] at hag
    obtain ⟨hstat, hread, hagk, hagr⟩ := hag
    have hnres : ¬ reservedName k ⟨escName n, true⟩ := by
      intro h
      rcases h with h | h
      · exact hmeta h
      · exact hsnap h
    have hparQ : (lookupNode (parentPath (znodeOf (filepath_Join dp (escName n))))
        zk.nodes).isSome = true := by
      rw [hz, parentPath_childPath P n hPne hvalid.2.1]; exact hpar
    have habsQ : lookupNode (znodeOf (filepath_Join dp (escName n))) zk.nodes = none := by
      rw [hz]
      exact habs ⟨childPath P n, n, d, kids.isNil⟩ (by simp [nodeList])
    have hfind : (if kids.isNil then FsForest.file k.CONTENT_FILE d .nil
          else image k kids).find k.CONTENT_FILE
          = some (.isFile (if kids.isNil then d else [])) ∨
        ((if kids.isNil then FsForest.file k.CONTENT_FILE d .nil
          else image k kids).find k.CONTENT_FILE = none ∧
          (if kids.isNil then d else []) = []) := by
      cases hk : kids.isNil with
      | true => left; simp [FsForest.find]
      | false =>
        right
        simp only [Bool.false_eq_true, if_false, and_true]
        apply find_image_none
        intro m hm
        obtain ⟨x, hx, hxm, hxp⟩ := names_mem_nodeList_name kids (childPath P n) m hm
        have hxok := hok x (by simp [nodeList, hx])
        have hslash : '/' ∉ m := by rw [← hxm]; exact hxok.1.2.1
        have hQne : childPath P n ≠ [] := by
          intro e; rw [e] at hQabs; simp at hQabs
        have hpar : parentPath x.path = childPath P n := by
          rw [hxp]; exact parentPath_childPath (childPath P n) m hQne hslash
        have := hxok.2.2.2.2.1 (by rw [hpar]; exact childPath_ne_root P n hP hvalid.1)
        rw [hxm] at this
        exact this
    obtain ⟨zk1, hstep1, hnodes1, he1, hce1⟩ :=
      vzr_dir_creates k fs (filepath_Join dp (escName n)) ⟨escName n, true⟩ none zk _ _
        hnres rfl he hce habsQ hparQ hstat hread hfind
    rw [hz] at hnodes1
    have hstep2 : ∃ zk2, Walk (visitZKReverse k fs)
          (listing (filepath_Join dp (escName n))
            (if kids.isNil then FsForest.file k.CONTENT_FILE d .nil else image k kids)) zk1
          = (none, zk2) ∧
        zk2.nodes = zk1.nodes ++ (nodeList (childPath P n) kids).map restored ∧
        zk2.existsErr = zk1.existsErr ∧ zk2.createErr = zk1.createErr := by
      cases hk : kids.isNil with
      | true =>
        cases kids with
        | cons _ _ _ _ => simp [Forest.isNil] at hk
        | nil =>
          simp only [if_true, listing, nodeList, List.map_nil, List.append_nil]
          obtain ⟨zk2, hv, hn2, he2, hce2⟩ :=
            vzr_notDir_ok k fs (filepath_Join (filepath_Join dp (escName n)) k.CONTENT_FILE)
              ⟨k.CONTENT_FILE, false⟩ none zk1 rfl (by rw [he1]; exact he _)
          exact ⟨zk2, by rw [Walk_cons_ok _ _ _ _ _ _ hv]; rfl, hn2, he2, hce2⟩
      | false =>
        simp only [Bool.false_eq_true, if_false]
        simp only [hk, Bool.false_eq_true, if_false] at hagk
        refine ihk (childPath P n) _ zk1 hQabs hdirQ
          (fun x hx => hok x (by simp [nodeList, hx])) hndk hagk
          (fun p => by rw [he1]; exact he p) (fun p => by rw [hce1]; exact hce p) ?_ ?_
        · rw [hnodes1, lookupNode_append_single _ _ _ (by rw [← hz]; exact habsQ)]; rfl
        · intro x hx
          rw [hnodes1, lookupNode_eq_none_iff, List.map_append, List.mem_append]
          rintro (h | h)
          · exact (lookupNode_eq_none_iff _ _).1 (habs x (by simp [nodeList, hx])) h
          · simp only [List.map_cons, List.map_nil, List.mem_singleton] at h
            have hm := List.mem_map_of_mem ZNode.path hx
            rw [h] at hm
            exact hQk hm
    obtain ⟨zk2, hwalk2, hnodes2, he2, hce2⟩ := hstep2
    obtain ⟨zk3, hwalk3, hnodes3, he3, hce3⟩ :=
      ihr P dp zk2 hP hdir (fun x hx => hok x (by simp [nodeList, hx])) hndr hagr
        (fun p => by rw [he2, he1]; exact he p) (fun p => by rw [hce2, hce1]; exact hce p)
        (by
          rw [hnodes2, hnodes1]
          cases hl : lookupNode P zk.nodes with
          | none => rw [hl] at hpar; simp at hpar
          | some v =>
            rw [List.append_assoc, lookupNode_append_some _ _ _ _ hl]; rfl)
        (by
          intro x hx
          rw [hnodes2, hnodes1, lookupNode_eq_none_iff, List.map_append, List.map_append,
            List.mem_append, List.mem_append, map_fst_restored]
          rintro ((h | h) | h)
          · exact (lookupNode_eq_none_iff _ _).1 (habs x (by simp [nodeList, hx])) h
          · simp only [List.map_cons, List.map_nil, List.mem_singleton] at h
            have hm := List.mem_map_of_mem ZNode.path hx
            rw [h] at hm
            exact hQr hm
          · exact hdisj h (List.mem_map_of_mem _ hx))
    refine ⟨zk3, ?_, ?_, by rw [he3, he2, he1], by rw [hce3, hce2, hce1]⟩
    · simp only [image, listing]
      rw [Walk_cons_ok _ _ _ _ _ _ hstep1, Walk_append_ok _ _ _ _ _ hwalk2, hwalk3]
    · rw [hnodes3, hnodes2, hnodes1]
      simp [nodeList, restored]

/-! ### Backup, then restore -/

theorem visitZK_eq_leaves (zk : ZkReader) (path : Str) (data : Bytes) (kids : Forest)
    (fuel : Nat) (hs : servesTree zk path data kids) (hf : kids.height < fuel) :
    visitZK zk fuel path = some (leaves path data kids) := by
  obtain ⟨hch, hget, hsk⟩ := hs
  obtain ⟨fuel1, rfl⟩ : ∃ m, fuel = m + 1 := ⟨fuel - 1, by omega⟩
  rw [visitZK_succ, hch]
  unfold leaves
  cases hk : kids.isNil with
  | true =>
    have : ¬ (kids.names.length > 0) := by rw [names_length_pos, hk]; simp
    simp only [if_neg this, hget hk, if_true]
  | false =>
    have : kids.names.length > 0 := by rw [names_length_pos, hk]
    simp only [if_pos this, Bool.false_eq_true, if_false]
    exact forEach_visitZK zk kids path fuel1 hsk (by omega)

theorem nodeList_path_ne_root (k : Consts) (F : Forest) :
    ∀ P : Str, P.head? = some '/' → (∀ x ∈ nodeList P F, nodeOK k x) →
      ∀ x ∈ nodeList P F, x.path ≠ ['/'] := by
  induction F with
  | nil => intro P _ _ x hx; simp [nodeList] at hx
  | cons n d kids rest ihk ihr =>
    intro P hP hok x hx
    have h0 := hok ⟨childPath P n, n, d, kids.isNil⟩ (by simp [nodeList])
    simp only [nodeList, List.mem_cons, List.mem_append] at hx
    rcases hx with hx | hx | hx
    · rw [hx]; exact childPath_ne_root P n hP h0.1.1
    · exact ihk (childPath P n) (childPath_head P n hP)
        (fun y hy => hok y (by simp [nodeList, hy])) x hx
    · exact ihr P hP (fun y hy => hok y (by simp [nodeList, hy])) x hx

theorem leaves_mem_nodeList (F : Forest) :
    ∀ (P p : Str) (v : Bytes), (p, v) ∈ leavesBelow P F →
      ∃ x ∈ nodeList P F, x.path = p ∧ x.data = v ∧ x.isLeaf = true := by
  induction F with
  | nil => intro P p v h; simp [leavesBelow] at h
  | cons n d kids rest ihk ihr =>
    intro P p v h
    simp only [leavesBelow, List.mem_append] at h
    rcases h with h | h
    · cases hk : kids.isNil with
      | true =>
        rw [hk] at h
        simp only [if_true, List.mem_singleton, Prod.mk.injEq] at h
        exact ⟨⟨childPath P n, n, d, kids.isNil⟩, by simp [nodeList], h.1.symm, h.2.symm, hk⟩
      | false =>
        rw [hk] at h
        simp only [Bool.false_eq_true, if_false] at h
        obtain ⟨x, hx, hx2⟩ := ihk (childPath P n) p v h
        exact ⟨x, by simp [nodeList, hx], hx2⟩
    · obtain ⟨x, hx, hx2⟩ := ihr P p v h
      exact ⟨x, by simp [nodeList, hx], hx2⟩

theorem lookupNode_of_mem (l : List (Str × Bytes)) (p : Str) (v : Bytes)
    (hnd : (l.map Prod.fst).Nodup) (h : (p, v) ∈ l) : lookupNode p l = some v := by
  induction l with
  | nil => simp at h
  | cons x l ih =>
    obtain ⟨q, d⟩ := x
    simp only [List.map_cons, List.nodup_cons] at hnd
    simp only [List.mem_cons, Prod.mk.injEq] at h
    simp only [lookupNode]
    rcases h with ⟨h1, h2⟩ | h
    · simp [h1, h2]
    · have hne : q ≠ p := by
        intro e
        exact hnd.1 (by rw [e]; exact List.mem_map_of_mem Prod.fst h)
      simp only [hne, if_false]
      exact ih hnd.2 h

/-- The mirror written by the backup of a tree whose root has children is the mirror
image of the tree, children in lexical order of their mirror names. -/
theorem mirrorOf_leaves (k : Consts) (kids : Forest) (hk : kids.isNil = false)
    (hok : ∀ x ∈ nodeList ['/'] kids, nodeOK k x)
    (hnd : ((nodeList ['/'] kids).map ZNode.path).Nodup) :
    mirrorOf k (leavesBelow ['/'] kids) = image k (lexInto kids .nil) := by
  have hmd := mirrorDistinct_of_nodup k kids ['/'] rfl hok hnd
  unfold mirrorOf
  rw [foldl_reap_below k kids ['/'] .nil rfl hk (fun x hx => (hok x hx).1),
    ToMirrorPath_root, pathSegments_nil]
  exact reapBelow_image k kids .nil hmd (by simp [Forest.names])

/-- Restoring the backup of a tree whose root has children into the empty tree succeeds
and creates exactly the znodes of the tree. -/
theorem roundTrip_branch (k : Consts) (kids : Forest) (hc : validName k.CONTENT_FILE)
    (hk : kids.isNil = false)
    (hok : ∀ x ∈ nodeList ['/'] kids, nodeOK k x)
    (hnd : ((nodeList ['/'] kids).map ZNode.path).Nodup) :
    ∃ zk1, roundTrip k (leavesBelow ['/'] kids) = (true, zk1) ∧
      zk1.nodes = emptyTree ++ (nodeList ['/'] (lexInto kids .nil)).map restored ∧
      List.Perm (nodeList ['/'] (lexInto kids .nil)) (nodeList ['/'] kids) := by
  have hperm : List.Perm (nodeList ['/'] (lexInto kids .nil)) (nodeList ['/'] kids) := by
    simpa [nodeList] using nodeList_lexInto kids .nil ['/']
  have hok2 : ∀ x ∈ nodeList ['/'] (lexInto kids .nil), nodeOK k x :=
    fun x hx => hok x (hperm.mem_iff.1 hx)
  have hnd2 : ((nodeList ['/'] (lexInto kids .nil)).map ZNode.path).Nodup :=
    (hperm.map ZNode.path).nodup_iff.2 hnd
  have hmd2 := mirrorDistinct_of_nodup k (lexInto kids .nil) ['/'] rfl hok2 hnd2
  have hwf := FsWF_image k hc (lexInto kids .nil) ['/'] hok2 hmd2
  have hag := fsOf_agrees_root k (image k (lexInto kids .nil)) hc hwf
  have habs : ∀ x ∈ nodeList ['/'] (lexInto kids .nil),
      lookupNode x.path (connTo emptyTree).nodes = none := by
    intro x hx
    have hne := nodeList_path_ne_root k (lexInto kids .nil) ['/'] rfl hok2 x hx
    have hne2 : ¬ (['/'] = x.path) := fun e => hne e.symm
    simp [connTo, emptyTree, lookupNode, hne2]
  obtain ⟨zk1, hwalk, hnodes, _, _⟩ :=
    walk_image k (fsOf (image k (lexInto kids .nil))) (lexInto kids .nil) ['/'] ['.']
      (connTo emptyTree) rfl (Or.inl ⟨rfl, rfl⟩) hok2 hnd2 hag (fun _ => rfl) (fun _ => rfl)
      rfl habs
  refine ⟨zk1, ?_, hnodes, hperm⟩
  unfold roundTrip
  rw [mirrorOf_leaves k kids hk hok hnd]
  unfold restoreZK snapshotEntries
  rw [if_pos (by decide),
    Walk_cons_ok _ _ _ _ _ _ (vzr_reserved k _ ['.'] ⟨k.snapshotid, true⟩ none
      (connTo emptyTree) (Or.inr rfl)), hwalk]

/-- Restoring the backup of a tree whose root is a leaf succeeds and creates nothing. -/
theorem roundTrip_rootLeaf (k : Consts) (data : Bytes) :
    ∃ zk1, roundTrip k [(['/'], data)] = (true, zk1) ∧ zk1.nodes = emptyTree := by
  have hM : mirrorOf k [(['/'], data)] = .file k.CONTENT_FILE data .nil := by
    simp [mirrorOf, reapsimple, writeContent, ToMirrorPath_root, pathSegments_nil, enter,
      writeFile, FsForest.hasName, insertFile]
  obtain ⟨zk1, hv, hn, _, _⟩ :=
    vzr_notDir_ok k (fsOf (.file k.CONTENT_FILE data .nil))
      (filepath_Join ['.'] k.CONTENT_FILE) ⟨k.CONTENT_FILE, false⟩ none (connTo emptyTree)
      rfl rfl
  refine ⟨zk1, ?_, hn⟩
  unfold roundTrip
  rw [hM]
  unfold restoreZK snapshotEntries
  rw [if_pos (by decide),
    Walk_cons_ok _ _ _ _ _ _ (vzr_reserved k _ ['.'] ⟨k.snapshotid, true⟩ none
      (connTo emptyTree) (Or.inr rfl))]
  simp only [listing]
  rw [Walk_cons_ok _ _ _ _ _ _ hv]
  rfl

/-- C2 as stated fails, on four finite trees restored into the empty tree without any
service or I/O failure: the leaf `/BURRY_ESC_COLON` comes back as `/:`; the payload of a
root that is a leaf is not restored; below the branch `/a` with the child `content` the
restore aborts and reports failure; the leaf `/.burrymeta` is skipped. -/
theorem round_trip_counterexample :
    (servesTree serverToken ['/'] [] treeToken ∧
      visitZK serverToken 3 ['/'] = some [("/BURRY_ESC_COLON".toList, "v".toList)] ∧
      lookupNode "/BURRY_ESC_COLON".toList
        (roundTrip burry [("/BURRY_ESC_COLON".toList, "v".toList)]).2.nodes = none) ∧
    (servesTree serverRootLeaf ['/'] "v".toList .nil ∧
      visitZK serverRootLeaf 3 ['/'] = some [(['/'], "v".toList)] ∧
      lookupNode ['/'] (roundTrip burry [(['/'], "v".toList)]).2.nodes = some []) ∧
    (servesTree serverContent ['/'] [] treeContent ∧
      visitZK serverContent 3 ['/'] = some [("/a/content".toList, "v".toList)] ∧
      (roundTrip burry [("/a/content".toList, "v".toList)]).1 = false ∧
      lookupNode "/a/content".toList
        (roundTrip burry [("/a/content".toList, "v".toList)]).2.nodes = none) ∧
    (servesTree serverMeta ['/'] [] treeMeta ∧
      visitZK serverMeta 3 ['/'] = some [("/.burrymeta".toList, "v".toList)] ∧
      lookupNode "/.burrymeta".toList
        (roundTrip burry [("/.burrymeta".toList, "v".toList)]).2.nodes = none) := by
  refine ⟨⟨by decide, by decide, by decide⟩, ⟨by decide, by decide, by decide⟩,
    ⟨by decide, by decide, by decide, by decide⟩, ⟨by decide, by decide, by decide⟩⟩

/-- C2, amended. Let the content file name be a valid file name. For every finite tree
held at `/` whose znodes have valid names (other than `..`), pairwise different paths, no
occurrence of the token `BURRY_ESC_COLON` in a path, no mirror directory name equal to
the metadata marker or the snapshot id, and, below a parent other than the root, no
mirror directory name equal to the content file name: the backup walk returns, and
restoring the mirror it wrote into the empty tree, without any service or I/O failure,
reports success and yields a tree in which every original leaf path other than `/` holds
the original payload, every original branch path exists, and `/` exists. -/
theorem backup_restore_round_trip (k : Consts) (zk : ZkReader) (data : Bytes) (kids : Forest)
    (fuel : Nat) (hs : servesTree zk ['/'] data kids) (hf : kids.height < fuel)
    (hc : validName k.CONTENT_FILE)
    (hok : ∀ x ∈ nodeList ['/'] kids, nodeOK k x)
    (hnd : ((nodeList ['/'] kids).map ZNode.path).Nodup) :
    ∃ invs, visitZK zk fuel ['/'] = some invs ∧
      (roundTrip k invs).1 = true ∧
      (∀ p v, (p, v) ∈ leaves ['/'] data kids → p ≠ ['/'] →
        lookupNode p (roundTrip k invs).2.nodes = some v) ∧
      (∀ x ∈ nodeList ['/'] kids, x.isLeaf = false →
        (lookupNode x.path (roundTrip k invs).2.nodes).isSome = true) ∧
      (lookupNode ['/'] (roundTrip k invs).2.nodes).isSome = true := by
  refine ⟨leaves ['/'] data kids, visitZK_eq_leaves zk ['/'] data kids fuel hs hf, ?_⟩
  cases hk : kids.isNil with
  | true =>
    cases kids with
    | cons _ _ _ _ => simp [Forest.isNil] at hk
    | nil =>
      obtain ⟨zk1, hrt, hnodes⟩ := roundTrip_rootLeaf k data
      have hl : leaves ['/'] data .nil = [(['/'], data)] := rfl
      rw [hl, hrt]
      refine ⟨rfl, ?_, ?_, ?_⟩
      · intro p v hmem hne
        simp only [List.mem_singleton, Prod.mk.injEq] at hmem
        exact absurd hmem.1 hne
      · intro x hx; simp [nodeList] at hx
      · simp only [hnodes]; rfl
  | false =>
    obtain ⟨zk1, hrt, hnodes, hperm⟩ := roundTrip_branch k kids hc hk hok hnd
    have hl : leaves ['/'] data kids = leavesBelow ['/'] kids := by
      unfold leaves; rw [hk]; rfl
    have hok2 : ∀ x ∈ nodeList ['/'] (lexInto kids .nil), nodeOK k x :=
      fun x hx => hok x (hperm.mem_iff.1 hx)
    have hkeys : (zk1.nodes.map Prod.fst).Nodup := by
      rw [hnodes, List.map_append, map_fst_restored]
      simp only [emptyTree, List.map_cons, List.map_nil, List.singleton_append,
        List.nodup_cons]
      refine ⟨?_, (hperm.map ZNode.path).nodup_iff.2 hnd⟩
      intro hmem
      obtain ⟨x, hx, hxp⟩ := List.mem_map.1 hmem
      exact nodeList_path_ne_root k (lexInto kids .nil) ['/'] rfl hok2 x hx hxp
    have hall : ∀ x ∈ nodeList ['/'] kids,
        lookupNode x.path zk1.nodes = some (if x.isLeaf then x.data else []) := by
      intro x hx
      apply lookupNode_of_mem _ _ _ hkeys
      rw [hnodes]
      exact List.mem_append_right _
        (List.mem_map_of_mem restored (hperm.mem_iff.2 hx))
    rw [hl, hrt]
    refine ⟨rfl, ?_, ?_, ?_⟩
    · intro p v hmem _
      obtain ⟨x, hx, hxp, hxv, hxl⟩ := leaves_mem_nodeList kids ['/'] p v hmem
      have := hall x hx
      rw [hxp, hxl, hxv] at this
      simpa using this
    · intro x hx _
      simp only [hall x hx]
      rfl
    · simp only [hnodes, emptyTree]
      rfl

/-- C2, amended, at the server holding the top-level leaf `/content` = `c`, `/x` = `hello`
and `/y/z/w` = `world`. -/
theorem backup_restore_round_trip_witness :
    ∃ invs, visitZK serverTopContent 4 ['/'] = some invs ∧
      (roundTrip burry invs).1 = true ∧
      (∀ p v, (p, v) ∈ leaves ['/'] [] treeTopContent → p ≠ ['/'] →
        lookupNode p (roundTrip burry invs).2.nodes = some v) ∧
      (∀ x ∈ nodeList ['/'] treeTopContent, x.isLeaf = false →
        (lookupNode x.path (roundTrip burry invs).2.nodes).isSome = true) ∧
      (lookupNode ['/'] (roundTrip burry invs).2.nodes).isSome = true :=
  backup_restore_round_trip burry serverTopContent [] treeTopContent 4 (by decide)
    (by decide) (by decide) (by decide) (by decide)

end Burry
